import Mathlib

/-!
Verification of the redust in-memory key-value server against its design
specification.

The development shallowly embeds the Rust sources:
* `src/frame.rs`   — the wire codec (`Frame`, `Frame::check`, `Frame::parse`,
  `get_line`, `get_decimal`, `peek_u8`, `get_u8`, `skip`);
* `src/connection.rs` — serialization (`write_frame` / `write_value` /
  `write_decimal`) and the check-then-parse step (`Connection::parse_frame`);
* `src/parse.rs` and `src/cmd/` — the command parser (`Command::from_frame`);
* `src/db.rs`      — the shared store (`Db::get/set/subscribe/publish`,
  `Shared::purge_expired_keys`, `State::next_expiration`).

Bytes are modelled as `Nat` (values below 256 in every real buffer), `u64`
values as `Nat` with wrap-around (`% 2 ^ 64`) where the Rust code can wrap,
`Instant`/`Duration` as `Nat`, `Bytes`/`String` payloads as `List Nat`.
Functions that recurse through the buffer take an explicit fuel argument so
that they are structurally recursive and kernel-computable; a fuel of
`buf.length + 1` is always sufficient (each nesting level of `check`/`parse`
consumes at least four bytes of buffer), which the fuel-generic lemmas below
make precise.
-/

namespace Redust

/-! ## Byte-level helpers -/

/-- `true` iff the byte list contains no two-byte `\r\n` (13, 10) sequence
(checked over every adjacent window).  Used to characterise `Simple`/`Error`
payloads that survive the line scanner of `get_line` intact. -/
def crlfFree : List Nat → Bool
  | [] => true
  | [_] => true
  | b :: c :: rest => !(b = 13 && c = 10) && crlfFree (c :: rest)

/-- Loop of the `atoi` crate's `FromRadix10`: consume leading ASCII digits,
accumulating with u64 wrap-around semantics, returning the value and the
number of digits consumed. -/
def atoiLoop : List Nat → Nat → Nat → Nat × Nat
  | [], acc, cnt => (acc, cnt)
  | b :: rest, acc, cnt =>
    if 48 ≤ b ∧ b ≤ 57 then atoiLoop rest ((acc * 10 + (b - 48)) % 2 ^ 64) (cnt + 1)
    else (acc, cnt)

/-- `atoi::atoi::<u64>` (as used by `get_decimal` and `Parse::next_int`):
`None` when the slice does not start with a digit, otherwise the value of the
maximal digit run. -/
def atoiM (l : List Nat) : Option Nat :=
  let r := atoiLoop l 0 0
  if r.2 = 0 then none else some r.1

/-- Digit expansion used by `u64`'s `Display` (and hence by
`Connection::write_decimal`'s `write!`), with fuel for structural recursion;
`decDigits` supplies a sufficient fuel. -/
def decDigitsCore : Nat → Nat → List Nat → List Nat
  | 0, _, acc => acc
  | fuel + 1, n, acc =>
    if n < 10 then (48 + n) :: acc
    else decDigitsCore fuel (n / 10) ((48 + n % 10) :: acc)

/-- ASCII decimal digits of `n`, most significant first. -/
def decDigits (n : Nat) : List Nat := decDigitsCore (n + 1) n []

/-- Numeric value of a digit string (used only in proofs). -/
def digitsVal (l : List Nat) : Nat := l.foldl (fun a b => a * 10 + (b - 48)) 0

/-- ASCII lowercasing, byte by byte. Rust's `String::to_lowercase` is full
Unicode lowercasing; the two agree on ASCII strings, and every theorem that
uses this function restricts itself to ASCII input. -/
def lowerBytes (l : List Nat) : List Nat :=
  l.map fun b => if 65 ≤ b ∧ b ≤ 90 then b + 32 else b

/-- All bytes are ASCII. -/
def asciiOnly (l : List Nat) : Bool := l.all fun b => b < 128

/-- Is `b` a UTF-8 continuation byte (`0x80..=0xBF`)? -/
def utf8Cont (b : Nat) : Bool := 128 ≤ b && b ≤ 191

/-- Constraint on the first continuation byte, which excludes overlong
encodings (leads `0xE0`, `0xF0`) and surrogates / values beyond `0x10FFFF`
(leads `0xED`, `0xF4`). -/
def utf8First (b c1 : Nat) : Bool :=
  if b = 224 then 160 ≤ c1 && c1 ≤ 191
  else if b = 237 then 128 ≤ c1 && c1 ≤ 159
  else if b = 240 then 144 ≤ c1 && c1 ≤ 191
  else if b = 244 then 128 ≤ c1 && c1 ≤ 143
  else utf8Cont c1

mutual

/-- UTF-8 validity of a byte sequence (the check performed by Rust's
`String::from_utf8` / `str::from_utf8`), including the surrogate and
overlong-encoding restrictions. -/
def utf8Valid : List Nat → Bool
  | [] => true
  | b :: rest =>
    if b < 128 then utf8Valid rest
    else if b < 194 then false
    else if b ≤ 223 then utf8Need1 b rest
    else if b ≤ 239 then utf8Need2 b rest
    else if b ≤ 244 then utf8Need3 b rest
    else false

/-- One continuation byte expected after lead `b`. -/
def utf8Need1 (b : Nat) : List Nat → Bool
  | c1 :: r => utf8First b c1 && utf8Valid r
  | [] => false

/-- Two continuation bytes expected after lead `b`. -/
def utf8Need2 (b : Nat) : List Nat → Bool
  | c1 :: c2 :: r => utf8First b c1 && utf8Cont c2 && utf8Valid r
  | _ => false

/-- Three continuation bytes expected after lead `b`. -/
def utf8Need3 (b : Nat) : List Nat → Bool
  | c1 :: c2 :: c3 :: r => utf8First b c1 && utf8Cont c2 && utf8Cont c3 && utf8Valid r
  | _ => false

end

/-! ## Codec primitives (`src/frame.rs`) -/

/-- `frame::Error`: `Incomplete` signals "need more bytes"; `other` carries
the message of every malformed-frame (or panic) outcome. -/
inductive FrameError where
  | incomplete : FrameError
  | other : String → FrameError
deriving DecidableEq

/-- `peek_u8`: first unread byte, without advancing. -/
def peekU8 (buf : List Nat) (pos : Nat) : Except FrameError Nat :=
  match buf.get? pos with
  | none => .error .incomplete
  | some b => .ok b

/-- `get_u8`: first unread byte, advancing the cursor by one. -/
def getU8 (buf : List Nat) (pos : Nat) : Except FrameError (Nat × Nat) :=
  match buf.get? pos with
  | none => .error .incomplete
  | some b => .ok (b, pos + 1)

/-- `skip(src, n)`: advance the cursor by `n`, requiring `n` remaining bytes. -/
def skip (buf : List Nat) (pos n : Nat) : Except FrameError Nat :=
  if buf.length - pos < n then .error .incomplete else .ok (pos + n)

/-- The scan loop of `get_line`: the Rust code iterates `i` over
`start..(len - 1)` looking for `\r\n`; here `fuel` is the length of that
range and `i` the current index.  Returns the index of the `\r`. -/
def findCRLF (buf : List Nat) : Nat → Nat → Option Nat
  | 0, _ => none
  | fuel + 1, i =>
    if buf.get? i = some 13 ∧ buf.get? (i + 1) = some 10 then some i
    else findCRLF buf fuel (i + 1)

/-- `get_line`: the bytes up to the first `\r\n` at or after `pos`, and the
cursor position just past the `\n`. -/
def getLine (buf : List Nat) (pos : Nat) : Except FrameError (List Nat × Nat) :=
  match findCRLF buf (buf.length - 1 - pos) pos with
  | some i => .ok ((buf.drop pos).take (i - pos), i + 2)
  | none => .error .incomplete

/-- `get_decimal`: a `\r\n`-terminated line fed to `atoi::<u64>`. -/
def getDecimal (buf : List Nat) (pos : Nat) : Except FrameError (Nat × Nat) :=
  match getLine buf pos with
  | .error e => .error e
  | .ok (line, p) =>
    match atoiM line with
    | none => .error (.other "protocol error; invalid frame format")
    | some v => .ok (v, p)

/-! ## The `Frame` type and its serialization (`Connection::write_frame`) -/

/-- `Frame`: one unit of the wire protocol.  `simple`/`error` carry the UTF-8
bytes of the Rust `String`, `integer` a `u64` value, `bulk` raw bytes. -/
inductive Frame where
  | simple : List Nat → Frame
  | error : List Nat → Frame
  | integer : Nat → Frame
  | bulk : List Nat → Frame
  | null : Frame
  | array : List Frame → Frame

/-- `Connection::write_decimal`.  The Rust code formats into the scratch
buffer `let mut buf = [0u8, 20]` — a two-element array `[0, 20]`, not the
intended 20-byte `[0u8; 20]` — so `write!` fails with a `WriteZero` I/O error
as soon as the decimal has three or more digits. -/
def writeDecimal (v : Nat) : Except String (List Nat) :=
  let ds := decDigits v
  if ds.length ≤ 2 then .ok (ds ++ [13, 10])
  else .error "failed to write whole buffer"

/-- `Connection::write_value`: serialization of a non-array frame.  The Rust
code reaches `unreachable!()` on a (nested) array frame, modelled as an
error. -/
def writeValue : Frame → Except String (List Nat)
  | .simple s => .ok (43 :: s ++ [13, 10])
  | .error s => .ok (45 :: s ++ [13, 10])
  | .integer v =>
    match writeDecimal v with
    | .error e => .error e
    | .ok d => .ok (58 :: d)
  | .null => .ok [36, 45, 49, 13, 10]
  | .bulk b =>
    match writeDecimal b.length with
    | .error e => .error e
    | .ok d => .ok (36 :: d ++ b ++ [13, 10])
  | .array _ => .error "panic: unreachable"

/-- The element loop of `Connection::write_frame`'s array arm: serialize
each element through `write_value` in order, appending to the stream,
stopping at the first failure. -/
def writeValues : List Frame → Except String (List Nat)
  | [] => .ok []
  | f :: fs =>
    match writeValue f with
    | .error e => .error e
    | .ok ef =>
      match writeValues fs with
      | .error e => .error e
      | .ok es => .ok (ef ++ es)

/-- `Connection::write_frame`: arrays get a `*<count>\r\n` header followed by
each element through `write_value`; all other frames go straight through
`write_value`. -/
def writeFrame : Frame → Except String (List Nat)
  | .array xs =>
    match writeDecimal xs.length with
    | .error e => .error e
    | .ok d =>
      match writeValues xs with
      | .error e => .error e
      | .ok es => .ok (42 :: d ++ es)
  | f => writeValue f

/-! ## `Frame::check` and `Frame::parse` -/

/-- The element loop of `Frame::check`'s `*` arm: run `step` (checking one
frame) `n` times, threading the cursor. -/
def checkItems (step : Nat → Except FrameError Nat) : Nat → Nat → Except FrameError Nat
  | 0, pos => .ok pos
  | n + 1, pos =>
    match step pos with
    | .error e => .error e
    | .ok p => checkItems step n p

/-- `Frame::check`, with fuel spent once per frame header so the recursion is
structural.  Fuel exhaustion returns `incomplete`; it is unreachable whenever
`buf.length - pos < fuel` (each nesting level consumes at least four bytes),
so `checkRun` below always supplies enough. -/
def checkF : Nat → List Nat → Nat → Except FrameError Nat
  | 0, _, _ => .error .incomplete
  | fuel + 1, buf, pos =>
    match getU8 buf pos with
    | .error e => .error e
    | .ok (b, p1) =>
      if b = 43 then
        match getLine buf p1 with
        | .error e => .error e
        | .ok r => .ok r.2
      else if b = 45 then
        match getLine buf p1 with
        | .error e => .error e
        | .ok r => .ok r.2
      else if b = 58 then
        match getDecimal buf p1 with
        | .error e => .error e
        | .ok r => .ok r.2
      else if b = 36 then
        match peekU8 buf p1 with
        | .error e => .error e
        | .ok c =>
          if c = 45 then skip buf p1 4
          else
            match getDecimal buf p1 with
            | .error e => .error e
            | .ok (len, p2) => skip buf p2 (len + 2)
      else if b = 42 then
        match getDecimal buf p1 with
        | .error e => .error e
        | .ok (n, p2) => checkItems (fun q => checkF fuel buf q) n p2
      else .error (.other ("protocol error; invalid frame type byte " ++ toString b))

/-- `Frame::check` on a whole buffer: `buf.length + 1` fuel is always enough. -/
def checkRun (buf : List Nat) (pos : Nat) : Except FrameError Nat :=
  checkF (buf.length + 1) buf pos

/-- The element loop of `Frame::parse`'s `*` arm, collecting parsed frames in
order. -/
def parseItems (step : Nat → Except FrameError (Frame × Nat)) :
    Nat → Nat → List Frame → Except FrameError (List Frame × Nat)
  | 0, pos, acc => .ok (acc.reverse, pos)
  | n + 1, pos, acc =>
    match step pos with
    | .error e => .error e
    | .ok (f, p) => parseItems step n p (f :: acc)

/-- `Frame::parse`, fuelled like `checkF`.  The `unimplemented!()` arm for an
unknown type byte (a panic in Rust) is modelled as a malformed-frame error. -/
def parseF : Nat → List Nat → Nat → Except FrameError (Frame × Nat)
  | 0, _, _ => .error .incomplete
  | fuel + 1, buf, pos =>
    match getU8 buf pos with
    | .error e => .error e
    | .ok (b, p1) =>
      if b = 43 then
        match getLine buf p1 with
        | .error e => .error e
        | .ok (line, p) =>
          if utf8Valid line then .ok (.simple line, p)
          else .error (.other "protocol error; invalid frame format")
      else if b = 45 then
        match getLine buf p1 with
        | .error e => .error e
        | .ok (line, p) =>
          if utf8Valid line then .ok (.error line, p)
          else .error (.other "protocol error; invalid frame format")
      else if b = 58 then
        match getDecimal buf p1 with
        | .error e => .error e
        | .ok (v, p) => .ok (.integer v, p)
      else if b = 36 then
        match peekU8 buf p1 with
        | .error e => .error e
        | .ok c =>
          if c = 45 then
            match getLine buf p1 with
            | .error e => .error e
            | .ok (line, p) =>
              if line = [45, 49] then .ok (.null, p)
              else .error (.other "protocol error; invalid frame format")
          else
            match getDecimal buf p1 with
            | .error e => .error e
            | .ok (len, p2) =>
              if buf.length - p2 < len + 2 then .error .incomplete
              else .ok (.bulk ((buf.drop p2).take len), p2 + (len + 2))
      else if b = 42 then
        match getDecimal buf p1 with
        | .error e => .error e
        | .ok (n, p2) =>
          match parseItems (fun q => parseF fuel buf q) n p2 [] with
          | .error e => .error e
          | .ok (fs, p) => .ok (.array fs, p)
      else .error (.other "panic: not implemented")

/-- `Frame::parse` on a whole buffer. -/
def parseRun (buf : List Nat) (pos : Nat) : Except FrameError (Frame × Nat) :=
  parseF (buf.length + 1) buf pos

/-- `Display` of `frame::Error`, used when `Connection::parse_frame`
propagates a parse failure as a `crate::Error`. -/
def frameErrStr : FrameError → String
  | .incomplete => "stream ended early"
  | .other m => m

/-- `Connection::parse_frame`: run `check` from position 0; on success take
the checked length, re-run `parse` from position 0 and consume the checked
length.  `Ok none` is the "need more data" outcome that makes `read_frame`
wait for more bytes; every error (including an `Incomplete` escaping from
`parse`) is a hard connection error. -/
def parseFrame (buf : List Nat) : Except String (Option (Frame × Nat)) :=
  match checkRun buf 0 with
  | .ok len =>
    match parseRun buf 0 with
    | .ok (f, _) => .ok (some (f, len))
    | .error e => .error (frameErrStr e)
  | .error .incomplete => .ok none
  | .error (.other m) => .error m

/-! ## Command parsing (`src/parse.rs`, `src/cmd/mod.rs`) -/

/-- `parse::ParseError`. -/
inductive ParseErr where
  | endOfStream : ParseErr
  | other : String → ParseErr
deriving DecidableEq

/-- Conversion of one frame to a string, as in the body of
`Parse::next_string` (`Simple` passes through; `Bulk` must be valid UTF-8;
anything else is a protocol error — the dynamic `{:?}` payload of the Rust
message is omitted). -/
def frameToString : Frame → Except ParseErr (List Nat)
  | .simple s => .ok s
  | .bulk d =>
    if utf8Valid d then .ok d
    else .error (.other "protocol error; iunvalid string")
  | _ => .error (.other "protocol errpr; expected simple frame or bulk")

/-- `Parse::next_string` over the remaining frames of the command array. -/
def nextString : List Frame → Except ParseErr (List Nat × List Frame)
  | [] => .error .endOfStream
  | f :: rest =>
    match frameToString f with
    | .error e => .error e
    | .ok s => .ok (s, rest)

/-- `Parse::next_bytes`. -/
def nextBytes : List Frame → Except ParseErr (List Nat × List Frame)
  | [] => .error .endOfStream
  | .simple s :: rest => .ok (s, rest)
  | .bulk d :: rest => .ok (d, rest)
  | _ :: _ => .error (.other "protocol error; expected simple frame of bulk format")

/-- `Parse::finish`: no arguments may remain. -/
def finishArgs : List Frame → Except ParseErr Unit
  | [] => .ok ()
  | _ :: _ => .error (.other "protocol error; expected end of frame; but there was more!")

/-- The `loop { match parse.next_string() ... }` of
`Subscribe::parse_frames` / `Unsubscribe::parse_frames`: collect strings
until `EndOfStream` (the end of the array), propagating other errors. -/
def collectStrings : List Frame → Except ParseErr (List (List Nat))
  | [] => .ok []
  | f :: rest =>
    match frameToString f with
    | .error e => .error e
    | .ok s =>
      match collectStrings rest with
      | .error e => .error e
      | .ok l => .ok (s :: l)

/-- The typed `Command` (`src/cmd/mod.rs`), with each variant's fields. -/
inductive Cmd where
  | get : List Nat → Cmd
  | set : List Nat → List Nat → Cmd
  | publish : List Nat → List Nat → Cmd
  | subscribe : List (List Nat) → Cmd
  | unsubscribe : List (List Nat) → Cmd
  | unknown : List Nat → Cmd
deriving DecidableEq

/-- Render a `ParseErr` as the `crate::Error` string seen by `from_frame`'s
caller. -/
def parseErrStr : ParseErr → String
  | .endOfStream => "protocol error; unexpected end of stream"
  | .other m => m

/-- `Get::parse_frame`: one key argument. -/
def getParseFrame (rest : List Frame) : Except ParseErr (Cmd × List Frame) :=
  match nextString rest with
  | .error e => .error e
  | .ok (key, r) => .ok (.get key, r)

/-- Modelled from the spec: `cmd/set.rs` is not among the sources (only its
`mod set;` declaration in `cmd/mod.rs` is).  §4.3 specifies `set` as taking
exactly the two positional arguments key (string coercion) and value (bytes
coercion). -/
def setParseFrame (rest : List Frame) : Except ParseErr (Cmd × List Frame) :=
  match nextString rest with
  | .error e => .error e
  | .ok (key, r) =>
    match nextBytes r with
    | .error e => .error e
    | .ok (value, r2) => .ok (.set key value, r2)

/-- `Publish::parse_frames`: channel then message. -/
def publishParseFrames (rest : List Frame) : Except ParseErr (Cmd × List Frame) :=
  match nextString rest with
  | .error e => .error e
  | .ok (channel, r) =>
    match nextBytes r with
    | .error e => .error e
    | .ok (message, r2) => .ok (.publish channel message, r2)

/-- `Subscribe::parse_frames`: one mandatory channel, then all remaining
strings. -/
def subscribeParseFrames (rest : List Frame) : Except ParseErr (Cmd × List Frame) :=
  match nextString rest with
  | .error e => .error e
  | .ok (c1, r) =>
    match collectStrings r with
    | .error e => .error e
    | .ok cs => .ok (.subscribe (c1 :: cs), [])

/-- `Unsubscribe::parse_frames`: zero or more channels. -/
def unsubscribeParseFrames (rest : List Frame) : Except ParseErr (Cmd × List Frame) :=
  match collectStrings rest with
  | .error e => .error e
  | .ok cs => .ok (.unsubscribe cs, [])

/-- ASCII bytes of the five recognised command names. -/
def nameGet : List Nat := [103, 101, 116]
def nameSet : List Nat := [115, 101, 116]
def namePublish : List Nat := [112, 117, 98, 108, 105, 115, 104]
def nameSubscribe : List Nat := [115, 117, 98, 115, 99, 114, 105, 98, 101]
def nameUnsubscribe : List Nat := [117, 110, 115, 117, 98, 115, 99, 114, 105, 98, 101]

/-- Dispatch on the lowercased command name, as in `Command::from_frame`'s
`match`.  The `Unknown` branch returns early (no `finish`), carrying the
lowercased name (`Unknown::new` itself is in the missing `cmd/unknown.rs`;
modelled from the spec as storing the name it is given). -/
def dispatchCommand (lname : List Nat) (rest : List Frame) :
    Except ParseErr (Cmd × List Frame) :=
  if lname = nameGet then getParseFrame rest
  else if lname = nameSet then setParseFrame rest
  else if lname = namePublish then publishParseFrames rest
  else if lname = nameSubscribe then subscribeParseFrames rest
  else if lname = nameUnsubscribe then unsubscribeParseFrames rest
  else .ok (.unknown lname, [])

/-- `Command::from_frame`: require a top-level array, take the first element
as a string, lowercase it, dispatch, and (for the five known commands, whose
`dispatch` leaves the untouched remainder) check that no arguments remain.
The unknown branch bypasses the `finish` check by returning an empty
remainder. -/
def fromFrame : Frame → Except String Cmd
  | .array parts =>
    match nextString parts with
    | .error e => .error (parseErrStr e)
    | .ok (name0, rest) =>
      let lname := lowerBytes name0
      match dispatchCommand lname rest with
      | .error e => .error (parseErrStr e)
      | .ok (cmd, r) =>
        match finishArgs r with
        | .error e => .error (parseErrStr e)
        | .ok _ => .ok cmd
  | _ => .error "protocol error; expected array"

/-! ## The store (`src/db.rs`) -/

/-- `db::Entry`: the entry id, value bytes and optional absolute expiration
instant. -/
structure Entry where
  id : Nat
  data : List Nat
  expiresAt : Option Nat
deriving DecidableEq

/-- `db::State`, the consolidated lock-protected record.  `entries` and
`pub_sub` (HashMaps) are modelled extensionally as functions; a broadcast
channel is modelled by its current receiver count; `expirations` (a
BTreeMap) as an association list whose minimum is computed by `minEntry`. -/
structure DbState where
  entries : String → Option Entry
  pubSub : String → Option Nat
  expirations : List ((Nat × Nat) × String)
  nextId : Nat
  shutdown : Bool

/-- The state built by `Db::new`. -/
def initState : DbState :=
  { entries := fun _ => none
    pubSub := fun _ => none
    expirations := []
    nextId := 0
    shutdown := false }

/-- Strict order on `(Instant, u64)` keys, as in Rust's derived tuple `Ord`. -/
def pairLt (a b : Nat × Nat) : Prop := a.1 < b.1 ∨ (a.1 = b.1 ∧ a.2 < b.2)

instance : DecidablePred fun p : (Nat × Nat) × (Nat × Nat) => pairLt p.1 p.2 :=
  fun _ => by unfold pairLt; infer_instance

instance (a b : Nat × Nat) : Decidable (pairLt a b) := by unfold pairLt; infer_instance

/-- The least element of the expiration index (`expirations.iter().next()` /
`expirations.keys().next()` on the BTreeMap). -/
def minEntry (l : List ((Nat × Nat) × String)) : Option ((Nat × Nat) × String) :=
  l.foldl
    (fun acc p =>
      match acc with
      | none => some p
      | some q => if pairLt p.1 q.1 then some p else some q)
    none

/-- `BTreeMap::remove` on the association list. -/
def eraseK (l : List ((Nat × Nat) × String)) (k : Nat × Nat) :
    List ((Nat × Nat) × String) :=
  l.filter fun p => ¬ p.1 = k

/-- `BTreeMap::insert` on the association list (overwrite any old binding). -/
def insK (l : List ((Nat × Nat) × String)) (k : Nat × Nat) (v : String) :
    List ((Nat × Nat) × String) :=
  (k, v) :: eraseK l k

/-- `State::next_expiration`: the instant of the least expiration key. -/
def nextExpiration (s : DbState) : Option Nat :=
  (minEntry s.expirations).map fun p => p.1.1

/-- `Db::get`: a clone of the entry's bytes, with no expiration filtering. -/
def dbGet (s : DbState) (key : String) : Option (List Nat) :=
  (s.entries key).map fun e => e.data

/-- `Db::set`: assign the fresh id `next_id`, compute the notify flag
against the pre-call `next_expiration`, insert the new expiration record (if
a duration was given), insert the entry, then remove the previous entry's
expiration record.  `now` stands for the `Instant::now()` read inside the
call; the returned `Bool` records whether `background_task.notify_one()` is
invoked. -/
def dbSet (s : DbState) (key : String) (value : List Nat)
    (expire : Option Nat) (now : Nat) : DbState × Bool :=
  let id := s.nextId
  let notify :=
    match expire with
    | none => false
    | some d =>
      match nextExpiration s with
      | some e => decide (now + d < e)
      | none => true
  let expiresAt := expire.map fun d => now + d
  let exps :=
    match expire with
    | none => s.expirations
    | some d => insK s.expirations (now + d, id) key
  let prev := s.entries key
  let exps2 :=
    match prev with
    | none => exps
    | some pe =>
      match pe.expiresAt with
      | none => exps
      | some w => eraseK exps (w, pe.id)
  ({ s with
      entries := fun k => if k = key then some ⟨id, value, expiresAt⟩ else s.entries k
      expirations := exps2
      nextId := s.nextId + 1 },
   notify)

/-- `Db::subscribe`: add a receiver to the channel's broadcast feed,
creating the feed (with its first receiver) lazily. -/
def dbSubscribe (s : DbState) (key : String) : DbState :=
  match s.pubSub key with
  | some n => { s with pubSub := fun k => if k = key then some (n + 1) else s.pubSub k }
  | none => { s with pubSub := fun k => if k = key then some 1 else s.pubSub k }

/-- A subscriber dropping its receiver (disconnecting).  The channel entry
itself persists, possibly with zero receivers. -/
def dbDropReceiver (s : DbState) (key : String) : DbState :=
  match s.pubSub key with
  | some (n + 1) => { s with pubSub := fun k => if k = key then some n else s.pubSub k }
  | _ => s

/-- `Db::publish`: `broadcast::Sender::send` returns `Err` when there are no
receivers, which `unwrap_or(0)` turns into 0; otherwise it returns the
receiver count.  A missing channel also yields 0.  The message itself is not
tracked by the model. -/
def dbPublish (s : DbState) (key : String) (_message : List Nat) : Nat :=
  match s.pubSub key with
  | none => 0
  | some n => if n = 0 then 0 else n

/-- The loop of `Shared::purge_expired_keys`: repeatedly take the least
expiration record; stop (reporting the instant) when it lies in the future,
otherwise remove the entry under the recorded key together with the record.
`fuel` makes the recursion structural; `purgeExpiredKeys` supplies
`length + 1`, which is always sufficient since each step removes a present
record. -/
def purgeLoop : Nat → DbState → Nat → DbState × Option Nat
  | 0, s, _ => (s, none)
  | fuel + 1, s, now =>
    match minEntry s.expirations with
    | none => (s, none)
    | some ((w, i), key) =>
      if now < w then (s, some w)
      else
        purgeLoop fuel
          { s with
              entries := fun k => if k = key then none else s.entries k
              expirations := eraseK s.expirations (w, i) }
          now

/-- `Shared::purge_expired_keys` at instant `now`: a no-op returning `none`
after shutdown. -/
def purgeExpiredKeys (s : DbState) (now : Nat) : DbState × Option Nat :=
  if s.shutdown then (s, none)
  else purgeLoop (s.expirations.length + 1) s now

/-- One store operation, as named by the spec's reachability clause.  `get`
and `publish` read but do not change the state. -/
inductive Op where
  | set : String → List Nat → Option Nat → Nat → Op
  | get : String → Op
  | subscribe : String → Op
  | dropReceiver : String → Op
  | publish : String → List Nat → Op
  | purge : Nat → Op

/-- Effect of one operation on the store state. -/
def applyOp (s : DbState) : Op → DbState
  | .set k v e now => (dbSet s k v e now).1
  | .get _ => s
  | .subscribe k => dbSubscribe s k
  | .dropReceiver k => dbDropReceiver s k
  | .publish _ _ => s
  | .purge now => (purgeExpiredKeys s now).1

/-- The store state after executing a whole trace from the initial state. -/
def execTrace (tr : List Op) : DbState := tr.foldl applyOp initState

/-- Does the operation write key `k` (is it a `set` on `k`)? -/
def isSetOn (k : String) : Op → Bool
  | .set k2 _ _ _ => k2 = k
  | _ => false

/-- All `Simple`/`Error` payloads of the frame (at any nesting depth) are
free of embedded `\r\n` — the condition under which the line scanner
recovers exactly the emitted payloads. -/
def textsCrlfFree : Frame → Bool
  | .simple s => crlfFree s
  | .error s => crlfFree s
  | .array [] => true
  | .array (x :: xs) => textsCrlfFree x && textsCrlfFree (.array xs)
  | _ => true

/-- No adjacent `(13, 10)` pair anywhere in the list, phrased through the
positional lookups that `find_crlf`'s scan performs. -/
def noPair (l : List Nat) : Prop :=
  ∀ j, ¬ (l.get? j = some 13 ∧ l.get? (j + 1) = some 10)

/-! ## Helper lemmas -/

/-- ASCII byte lists are valid UTF-8. -/
theorem asciiOnly_utf8Valid : ∀ (l : List Nat), asciiOnly l = true → utf8Valid l = true := by
  intro l
  induction l with
  | nil => intro _; rfl
  | cons b rest ih =>
    intro h
    rw [asciiOnly, List.all_cons, Bool.and_eq_true] at h
    have hb : b < 128 := by simpa using h.1
    have hr : utf8Valid rest = true := ih (by rw [asciiOnly]; exact h.2)
    rw [utf8Valid.eq_2, if_pos hb]
    exact hr

/-- `purgeLoop` only ever removes entries: an absent key stays absent. -/
theorem purgeLoop_entries_none :
    ∀ (fuel : Nat) (s : DbState) (now : Nat) (k : String),
      s.entries k = none → ((purgeLoop fuel s now).1).entries k = none := by
  intro fuel
  induction fuel with
  | zero => intro s now k h; exact h
  | succ fuel ih =>
    intro s now k h
    unfold purgeLoop
    cases hm : minEntry s.expirations with
    | none => exact h
    | some p =>
      obtain ⟨⟨w, i⟩, key⟩ := p
      by_cases hn : now < w
      · simp only [if_pos hn]; exact h
      · simp only [if_neg hn]
        apply ih
        simp only
        by_cases hk : k = key <;> simp [hk, h]

/-- A non-`set`-on-`k` operation leaves an absent key absent. -/
theorem applyOp_preserves_absent (s : DbState) (op : Op) (k : String)
    (hop : isSetOn k op = false) (h : s.entries k = none) :
    (applyOp s op).entries k = none := by
  cases op with
  | set k2 v e now =>
    simp only [isSetOn, decide_eq_false_iff_not] at hop
    have hne : ¬ k = k2 := fun hh => hop hh.symm
    simp [applyOp, dbSet, hne, h]
  | get _ => simpa [applyOp] using h
  | subscribe c =>
    simp only [applyOp, dbSubscribe]
    cases hc : s.pubSub c <;> simpa using h
  | dropReceiver c =>
    simp only [applyOp, dbDropReceiver]
    cases hc : s.pubSub c with
    | none => simpa using h
    | some n => cases n with | zero => simpa using h | succ m => simpa using h
  | publish _ _ => simpa [applyOp] using h
  | purge now =>
    simp only [applyOp, purgeExpiredKeys]
    by_cases hs : s.shutdown
    · simpa [hs] using h
    · simp only [hs, Bool.false_eq_true, if_false]
      exact purgeLoop_entries_none (s.expirations.length + 1) s now k h

/-- A trace with no `set` on `k` leaves `k` absent, from any state where it
is absent. -/
theorem trace_preserves_absent :
    ∀ (tr : List Op) (s : DbState) (k : String),
      s.entries k = none → (tr.all fun op => !isSetOn k op) = true →
      (tr.foldl applyOp s).entries k = none := by
  intro tr
  induction tr with
  | nil => intro s k h _; exact h
  | cons op rest ih =>
    intro s k h hall
    simp only [List.all_cons, Bool.and_eq_true, Bool.not_eq_true'] at hall
    exact ih (applyOp s op) k (applyOp_preserves_absent s op k hall.1 h) (by
      simpa [List.all_eq_true] using hall.2)

/-! ## Claim C1 -/

/-- C1 (code bug): the round-trip `parse(encode(f)) = f` cannot hold for
every constructible frame because `Connection::write_decimal` formats into
the two-byte scratch buffer `[0u8, 20]` (a typo for `[0u8; 20]`), so
encoding `Frame::Integer(100)` — or any frame whose decimal (integer value,
bulk length or array count) has three or more digits — fails with a
`WriteZero` I/O error instead of producing bytes.  Two-digit decimals still
fit, as the contrasting conjunct shows. -/
theorem write_decimal_buffer_bug :
    writeFrame (.integer 100) = .error "failed to write whole buffer"
    ∧ writeFrame (.integer 99) = .ok [58, 57, 57, 13, 10] :=
  ⟨rfl, rfl⟩

/-! ## Claim C2 -/

/-- C2: `Db::set(k, v, None)` immediately followed by `Db::get(k)` returns
`Some(v)`; and on any state reached by a trace that never `set`s `k`,
`Db::get(k)` returns `None`. -/
theorem set_then_get :
    (∀ (s : DbState) (k : String) (v : List Nat) (now : Nat),
        dbGet (dbSet s k v none now).1 k = some v)
    ∧ ∀ (tr : List Op) (k : String),
        (tr.all fun op => !isSetOn k op) = true →
        dbGet (execTrace tr) k = none := by
  constructor
  · intro s k v now
    simp [dbGet, dbSet]
  · intro tr k h
    unfold dbGet execTrace
    rw [trace_preserves_absent tr initState k rfl h]
    rfl

/-- Witness for C2 at concrete inputs: a fresh `set "a" [7]` is read back,
and a trace that only touches other keys and channels leaves `"a"` absent. -/
theorem set_then_get_witness :
    dbGet (dbSet initState "a" [7] none 0).1 "a" = some [7]
    ∧ dbGet (execTrace [.subscribe "a", .set "b" [1] none 0, .purge 5]) "a" = none :=
  ⟨set_then_get.1 initState "a" [7] 0,
   set_then_get.2 [.subscribe "a", .set "b" [1] none 0, .purge 5] "a" (by decide)⟩

/-! ## Claim C7 -/

/-- C7: `Db::publish` returns the channel's current receiver count — in
particular 0 when the channel is absent from the pub/sub map, and 0 when all
receivers have been dropped (`send` returns `Err`, turned into 0 by
`unwrap_or`).  The model's total return type `Nat` reflects that the Rust
function neither fails nor panics. -/
theorem publish_subscriber_count (s : DbState) (k : String) (m : List Nat) :
    dbPublish s k m = (s.pubSub k).getD 0
    ∧ (s.pubSub k = none → dbPublish s k m = 0) := by
  unfold dbPublish
  cases h : s.pubSub k with
  | none => exact ⟨rfl, fun _ => rfl⟩
  | some n =>
    refine ⟨?_, fun hc => by cases hc⟩
    cases n with
    | zero => rfl
    | succ n => simp

/-! ## Claim C8 -/

/-- C8: a `set` with expiration wakes the reaper exactly when no expiration
existed before the call or the previously-nearest expiration instant lies
strictly after the new one (`when = now + d`); in particular a `set` whose
expiration is not sooner than the current soonest does not notify. -/
theorem set_notify_iff (s : DbState) (k : String) (v : List Nat) (d now : Nat) :
    (dbSet s k v (some d) now).2 = true ↔
      nextExpiration s = none
      ∨ ∃ e, nextExpiration s = some e ∧ now + d < e := by
  unfold dbSet
  cases h : nextExpiration s with
  | none => simp
  | some e => simp [h]

/-! ## Claim C9 -/

/-- C9 counterexample: the client sends the literal name `FOO`
(bytes `[70, 79, 79]`), but `Command::from_frame` lowercases the name before
constructing the `Unknown` command, so the carried name is `foo`
(`[102, 111, 111]`), not the literal name as sent. -/
theorem from_frame_unknown_cx :
    fromFrame (.array [.bulk [70, 79, 79]]) = .ok (.unknown [102, 111, 111])
    ∧ [102, 111, 111] ≠ [70, 79, 79] :=
  ⟨rfl, by decide⟩

/-- C9 amended: for a well-formed command array whose (ASCII) first element
lowercases to something other than the five recognised names,
`Command::from_frame` returns an `Unknown` command carrying the LOWERCASED
name (`parse.next_string()?.to_lowercase()` is what reaches
`Unknown::new`), whether the name arrives as a `Bulk` or a `Simple` frame,
and regardless of any further elements (the unknown branch returns before
`parse.finish`). -/
theorem from_frame_unknown_lowercased (name : List Nat) (rest : List Frame)
    (hascii : asciiOnly name = true)
    (h1 : lowerBytes name ≠ nameGet) (h2 : lowerBytes name ≠ nameSet)
    (h3 : lowerBytes name ≠ namePublish) (h4 : lowerBytes name ≠ nameSubscribe)
    (h5 : lowerBytes name ≠ nameUnsubscribe) :
    fromFrame (.array (.bulk name :: rest)) = .ok (.unknown (lowerBytes name))
    ∧ fromFrame (.array (.simple name :: rest)) = .ok (.unknown (lowerBytes name)) := by
  have hu : utf8Valid name = true := asciiOnly_utf8Valid name hascii
  constructor
  · simp [fromFrame, nextString, frameToString, hu, dispatchCommand,
      h1, h2, h3, h4, h5, finishArgs]
  · simp [fromFrame, nextString, frameToString, dispatchCommand,
      h1, h2, h3, h4, h5, finishArgs]

/-- Witness for C9's amended theorem at the concrete name `FOO`. -/
theorem from_frame_unknown_witness :
    fromFrame (.array [.bulk [70, 79, 79]]) = .ok (.unknown (lowerBytes [70, 79, 79])) :=
  (from_frame_unknown_lowercased [70, 79, 79] [] (by decide) (by decide)
    (by decide) (by decide) (by decide) (by decide)).1

/-! ## Claim C5 -/

/-- C5 counterexample: `Frame::check` accepts the buffer `$-2\r\n` — a
negative-looking bulk length that is not the null marker — as a complete
frame (its `$`/`-` arm just skips four bytes), where the claim requires a
malformed-frame error from both `check` and `parse`. -/
theorem check_negative_bulk_cx : checkRun [36, 45, 50, 13, 10] 0 = .ok 5 := rfl

/-- C5 amended: on a buffer starting `$` `-`, `Frame::parse` yields a frame
only for the literal null marker — it returns `Frame::Null` exactly when the
line after `$` is `-1`, and a malformed-frame error on any other
negative-looking, `\r\n`-terminated length — while `Frame::check` does not
validate the marker at all: it accepts any such buffer with at least four
bytes after the `$` (and reports `Incomplete` otherwise). -/
theorem null_marker_parse (rest : List Nat) :
    (∀ f p, parseRun (36 :: 45 :: rest) 0 = .ok (f, p) →
      f = Frame.null ∧ getLine (36 :: 45 :: rest) 1 = .ok ([45, 49], p))
    ∧ (∀ line p, getLine (36 :: 45 :: rest) 1 = .ok (line, p) → line ≠ [45, 49] →
      parseRun (36 :: 45 :: rest) 0 =
        .error (.other "protocol error; invalid frame format"))
    ∧ checkRun (36 :: 45 :: rest) 0 =
        (if 3 ≤ rest.length then .ok 5 else .error .incomplete) := by
  have hbuf : (36 :: 45 :: rest).length = rest.length + 2 := by simp
  refine ⟨?_, ?_, ?_⟩
  · intro f p hp
    rw [parseRun, hbuf, parseF, getU8] at hp
    simp only [List.get?, peekU8] at hp
    norm_num at hp
    cases hg : getLine (36 :: 45 :: rest) 1 with
    | error e => rw [hg] at hp; cases hp
    | ok lp =>
      obtain ⟨line, p2⟩ := lp
      rw [hg] at hp
      by_cases hl : line = [45, 49]
      · simp only [hl, if_pos rfl] at hp
        cases hp
        refine ⟨rfl, ?_⟩
        rw [hl]
      · simp only [if_neg hl] at hp
        cases hp
  · intro line p hg hl
    rw [parseRun, hbuf, parseF, getU8]
    simp only [List.get?, peekU8]
    norm_num
    rw [hg]
    simp [hl]
  · rw [checkRun, hbuf, checkF, getU8]
    simp only [List.get?, peekU8]
    norm_num
    rw [skip]
    by_cases h3 : 3 ≤ rest.length
    · rw [if_pos h3, if_neg (by simp; omega)]
    · rw [if_neg h3, if_pos (by simp; omega)]

/-- Witness for C5's amended theorem on the concrete buffer `$-2\r\n`:
`parse` reports a malformed frame while `check` (wrongly trusted by the
claim) accepts it. -/
theorem null_marker_parse_witness :
    parseRun [36, 45, 50, 13, 10] 0 =
      .error (.other "protocol error; invalid frame format")
    ∧ checkRun [36, 45, 50, 13, 10] 0 = .ok 5 :=
  ⟨(null_marker_parse [50, 13, 10]).2.1 [45, 50] 5 rfl (by decide),
   by simpa using (null_marker_parse [50, 13, 10]).2.2⟩

/-! ## Claim C10 -/

/-- C10 counterexample: on the buffer `$-abcd`, `Frame::check` succeeds (it
skips four bytes after `$-` without looking for a line terminator) while
`Frame::parse` on the very same buffer returns `Incomplete` (its null-marker
arm scans for a `\r\n` that is not there), contradicting the claim that
parse-after-check never returns `Incomplete`. -/
theorem check_ok_parse_incomplete_cx :
    checkRun [36, 45, 97, 98, 99, 100] 0 = .ok 5
    ∧ parseRun [36, 45, 97, 98, 99, 100] 0 = .error .incomplete :=
  ⟨rfl, rfl⟩

/-- C10 amended: whenever `Frame::check` at position 0 succeeds,
`Connection::parse_frame` never yields the need-more-data outcome
(`Ok(None)`) — it returns a parsed frame or a hard error — so the
`read_frame` loop cannot wait for bytes `check` already accepted.  (A parse
`Incomplete` after a successful check is possible — see the counterexample —
but `parse_frame`'s `?` operator converts it into a connection-fatal error
rather than a retry.) -/
theorem parse_frame_no_wait (buf : List Nat) (n : Nat)
    (h : checkRun buf 0 = .ok n) : parseFrame buf ≠ .ok none := by
  unfold parseFrame
  rw [h]
  cases hp : parseRun buf 0 with
  | error e => simp
  | ok fp => obtain ⟨f, p⟩ := fp; simp

/-- Witness for C10's amended theorem on the buffer `+\r\n`. -/
theorem parse_frame_no_wait_witness : parseFrame [43, 13, 10] ≠ .ok none :=
  parse_frame_no_wait [43, 13, 10] 3 rfl

/-! ## Expiration-index lemmas -/

theorem pairLt_irrefl (a : Nat × Nat) : ¬ pairLt a a := by
  unfold pairLt; omega

theorem pairLt_trans {a b c : Nat × Nat} (h1 : pairLt a b) (h2 : pairLt b c) :
    pairLt a c := by
  unfold pairLt at *; omega

theorem pairLt_total (a b : Nat × Nat) : pairLt a b ∨ a = b ∨ pairLt b a := by
  unfold pairLt
  obtain ⟨a1, a2⟩ := a
  obtain ⟨b1, b2⟩ := b
  simp only [Prod.mk.injEq]
  omega

/-- The fold step of `minEntry`. -/
def minStep (acc : Option ((Nat × Nat) × String)) (p : (Nat × Nat) × String) :
    Option ((Nat × Nat) × String) :=
  match acc with
  | none => some p
  | some q => if pairLt p.1 q.1 then some p else some q

theorem minEntry_eq_fold (l : List ((Nat × Nat) × String)) :
    minEntry l = l.foldl minStep none := by
  unfold minEntry minStep
  rfl

theorem foldl_minStep_some :
    ∀ (l : List ((Nat × Nat) × String)) (a : (Nat × Nat) × String),
      l.foldl minStep (some a) ≠ none := by
  intro l
  induction l with
  | nil => intro a h; cases h
  | cons p l ih =>
    intro a
    simp only [List.foldl_cons, minStep]
    by_cases hlt : pairLt p.1 a.1
    · rw [if_pos hlt]; exact ih p
    · rw [if_neg hlt]; exact ih a

/-- A `none` minimum means the index is empty. -/
theorem minEntry_eq_none {l : List ((Nat × Nat) × String)}
    (h : minEntry l = none) : l = [] := by
  cases l with
  | nil => rfl
  | cons p l =>
    rw [minEntry_eq_fold] at h
    simp only [List.foldl_cons, minStep] at h
    exact absurd h (foldl_minStep_some l p)

theorem foldl_minStep_mem :
    ∀ (l : List ((Nat × Nat) × String)) (acc : Option ((Nat × Nat) × String)) r,
      l.foldl minStep acc = some r → acc = some r ∨ r ∈ l := by
  intro l
  induction l with
  | nil => intro acc r h; exact Or.inl h
  | cons p l ih =>
    intro acc r h
    simp only [List.foldl_cons] at h
    rcases ih (minStep acc p) r h with hacc | hmem
    · cases acc with
      | none =>
        simp only [minStep] at hacc
        cases hacc
        exact Or.inr (List.mem_cons_self p l)
      | some q =>
        simp only [minStep] at hacc
        by_cases hlt : pairLt p.1 q.1
        · rw [if_pos hlt] at hacc
          cases hacc
          exact Or.inr (List.mem_cons_self p l)
        · rw [if_neg hlt] at hacc
          exact Or.inl hacc
    · exact Or.inr (List.mem_cons_of_mem p hmem)

/-- The minimum belongs to the index. -/
theorem minEntry_mem {l : List ((Nat × Nat) × String)} {r : (Nat × Nat) × String}
    (h : minEntry l = some r) : r ∈ l := by
  rw [minEntry_eq_fold] at h
  rcases foldl_minStep_mem l none r h with hacc | hmem
  · cases hacc
  · exact hmem

theorem foldl_minStep_lb :
    ∀ (l : List ((Nat × Nat) × String)) (acc : Option ((Nat × Nat) × String)) r,
      l.foldl minStep acc = some r →
      (∀ q ∈ l, ¬ pairLt q.1 r.1) ∧ (∀ a, acc = some a → ¬ pairLt a.1 r.1) := by
  intro l
  induction l with
  | nil =>
    intro acc r h
    constructor
    · intro q hq
      cases hq
    · intro a ha
      rw [ha] at h
      cases h
      exact pairLt_irrefl r.1
  | cons p l ih =>
    intro acc r h
    simp only [List.foldl_cons] at h
    obtain ⟨hl, hstep⟩ := ih (minStep acc p) r h
    have hp : ¬ pairLt p.1 r.1 := by
      cases hq : acc with
      | none => exact hstep p (by rw [hq]; rfl)
      | some q =>
        by_cases hlt : pairLt p.1 q.1
        · exact hstep p (by rw [hq]; simp only [minStep]; rw [if_pos hlt])
        · have hqr : ¬ pairLt q.1 r.1 :=
            hstep q (by rw [hq]; simp only [minStep]; rw [if_neg hlt])
          intro hpr
          rcases pairLt_total q.1 p.1 with hqp | heq | hpq
          · exact hqr (pairLt_trans hqp hpr)
          · exact hqr (heq ▸ hpr)
          · exact hlt hpq
    refine ⟨?_, ?_⟩
    · intro q hq
      rcases List.mem_cons.mp hq with hq | hq
      · rw [hq]; exact hp
      · exact hl q hq
    · intro a ha
      by_cases hlt : pairLt p.1 a.1
      · intro har
        exact hp (pairLt_trans hlt har)
      · exact hstep a (by rw [ha]; simp only [minStep]; rw [if_neg hlt])

/-- Nothing in the index is strictly below the minimum. -/
theorem minEntry_lb {l : List ((Nat × Nat) × String)} {r : (Nat × Nat) × String}
    (h : minEntry l = some r) : ∀ q ∈ l, ¬ pairLt q.1 r.1 := by
  rw [minEntry_eq_fold] at h
  exact (foldl_minStep_lb l none r h).1

/-- Membership after a `BTreeMap::remove`. -/
theorem mem_eraseK {l : List ((Nat × Nat) × String)} {key : Nat × Nat}
    {q : (Nat × Nat) × String} : q ∈ eraseK l key ↔ q ∈ l ∧ q.1 ≠ key := by
  unfold eraseK
  rw [List.mem_filter]
  simp

/-- Membership after a `BTreeMap::insert`. -/
theorem mem_insK {l : List ((Nat × Nat) × String)} {key : Nat × Nat}
    {v : String} {q : (Nat × Nat) × String} :
    q ∈ insK l key v ↔ q = (key, v) ∨ (q ∈ l ∧ q.1 ≠ key) := by
  unfold insK
  rw [List.mem_cons, mem_eraseK]

/-- Removing a present key shrinks the index (fuel adequacy for
`purgeLoop`). -/
theorem eraseK_length_lt {l : List ((Nat × Nat) × String)}
    {p : (Nat × Nat) × String} (hp : p ∈ l) :
    (eraseK l p.1).length < l.length := by
  unfold eraseK
  apply List.length_filter_lt_length_iff_exists.mpr
  exact ⟨p, hp, by simp⟩

/-! ## The store invariant -/

/-- The invariant tying the expiration index to the live entries: reachable
states have not shut down, entry ids are below `next_id` (freshness) and
pairwise distinct, and an `(instant, id)` record exists exactly for the
entry (under the recorded key) whose `expires_at` is that instant. -/
structure Inv (s : DbState) : Prop where
  noShutdown : s.shutdown = false
  idLt : ∀ k e, s.entries k = some e → e.id < s.nextId
  recEntry : ∀ w i k, ((w, i), k) ∈ s.expirations →
    ∃ e, s.entries k = some e ∧ e.id = i ∧ e.expiresAt = some w
  entryRec : ∀ k e w, s.entries k = some e → e.expiresAt = some w →
    ((w, e.id), k) ∈ s.expirations
  idInj : ∀ k1 k2 e1 e2, s.entries k1 = some e1 → s.entries k2 = some e2 →
    e1.id = e2.id → k1 = k2

theorem inv_init : Inv initState := by
  constructor
  · rfl
  · intro k e h; cases h
  · intro w i k h; cases h
  · intro k e w h; cases h
  · intro k1 k2 e1 e2 h; cases h

theorem dbSet_entries (s : DbState) (k0 : String) (v : List Nat)
    (ex : Option Nat) (now : Nat) (kk : String) :
    ((dbSet s k0 v ex now).1).entries kk =
      if kk = k0 then some ⟨s.nextId, v, ex.map fun d => now + d⟩
      else s.entries kk := rfl

theorem dbSet_nextId (s : DbState) (k0 : String) (v : List Nat)
    (ex : Option Nat) (now : Nat) :
    ((dbSet s k0 v ex now).1).nextId = s.nextId + 1 := rfl

theorem dbSet_shutdown (s : DbState) (k0 : String) (v : List Nat)
    (ex : Option Nat) (now : Nat) :
    ((dbSet s k0 v ex now).1).shutdown = s.shutdown := rfl

/-- Membership in the expiration index after a `set`: the new record (when a
duration was given), or an old record that is neither overwritten by the new
key nor removed by the previous entry's cleanup. -/
theorem dbSet_exps_mem (s : DbState) (k0 : String) (v : List Nat)
    (ex : Option Nat) (now : Nat) (q : (Nat × Nat) × String) :
    q ∈ ((dbSet s k0 v ex now).1).expirations ↔
      ((∃ d, ex = some d ∧ q = ((now + d, s.nextId), k0))
        ∨ (q ∈ s.expirations ∧ ∀ d, ex = some d → q.1 ≠ (now + d, s.nextId)))
      ∧ ∀ pe w, s.entries k0 = some pe → pe.expiresAt = some w →
          q.1 ≠ (w, pe.id) := by
  cases hex : ex with
  | none =>
    cases hprev : s.entries k0 with
    | none =>
      have h1 : ((dbSet s k0 v none now).1).expirations = s.expirations := by
        simp [dbSet, hprev]
      rw [h1]
      constructor
      · intro hq
        refine ⟨Or.inr ⟨hq, by intro d hd; cases hd⟩, ?_⟩
        intro pe1 w2 hpe1 hw2
        cases hpe1
      · rintro ⟨hq, _⟩
        rcases hq with ⟨d, hd, _⟩ | ⟨hmem, _⟩
        · cases hd
        · exact hmem
    | some pe =>
      cases hpe : pe.expiresAt with
      | none =>
        have h1 : ((dbSet s k0 v none now).1).expirations = s.expirations := by
          simp [dbSet, hprev, hpe]
        rw [h1]
        constructor
        · intro hq
          refine ⟨Or.inr ⟨hq, by intro d hd; cases hd⟩, ?_⟩
          intro pe1 w2 hpe1 hw2
          have : pe1 = pe := (Option.some.inj hpe1).symm
          subst this
          rw [hpe] at hw2
          cases hw2
        · rintro ⟨hq, _⟩
          rcases hq with ⟨d, hd, _⟩ | ⟨hmem, _⟩
          · cases hd
          · exact hmem
      | some w =>
        have h1 : ((dbSet s k0 v none now).1).expirations =
            eraseK s.expirations (w, pe.id) := by
          simp [dbSet, hprev, hpe]
        rw [h1, mem_eraseK]
        constructor
        · rintro ⟨hq, hne⟩
          refine ⟨Or.inr ⟨hq, by intro d hd; cases hd⟩, ?_⟩
          intro pe1 w2 hpe1 hw2
          have : pe1 = pe := (Option.some.inj hpe1).symm
          subst this
          rw [hpe] at hw2
          have : w2 = w := (Option.some.inj hw2).symm
          subst this
          exact hne
        · rintro ⟨hq, hclean⟩
          have hne : q.1 ≠ (w, pe.id) := hclean pe w rfl hpe
          rcases hq with ⟨d, hd, _⟩ | ⟨hmem, _⟩
          · cases hd
          · exact ⟨hmem, hne⟩
  | some d =>
    cases hprev : s.entries k0 with
    | none =>
      have h1 : ((dbSet s k0 v (some d) now).1).expirations =
          insK s.expirations (now + d, s.nextId) k0 := by
        simp [dbSet, hprev]
      rw [h1, mem_insK]
      constructor
      · rintro (hq | ⟨hmem, hne⟩)
        · refine ⟨Or.inl ⟨d, rfl, hq⟩, ?_⟩
          intro pe1 w2 hpe1 hw2
          cases hpe1
        · refine ⟨Or.inr ⟨hmem, ?_⟩, ?_⟩
          · intro d2 hd2
            have : d2 = d := Option.some.inj hd2.symm
            subst this
            exact hne
          · intro pe1 w2 hpe1 hw2
            cases hpe1
      · rintro ⟨hq, _⟩
        rcases hq with ⟨d2, hd2, hq⟩ | ⟨hmem, hfresh⟩
        · have : d2 = d := Option.some.inj hd2.symm
          subst this
          exact Or.inl hq
        · exact Or.inr ⟨hmem, hfresh d rfl⟩
    | some pe =>
      cases hpe : pe.expiresAt with
      | none =>
        have h1 : ((dbSet s k0 v (some d) now).1).expirations =
            insK s.expirations (now + d, s.nextId) k0 := by
          simp [dbSet, hprev, hpe]
        rw [h1, mem_insK]
        constructor
        · rintro (hq | ⟨hmem, hne⟩)
          · refine ⟨Or.inl ⟨d, rfl, hq⟩, ?_⟩
            intro pe1 w2 hpe1 hw2
            have : pe1 = pe := (Option.some.inj hpe1).symm
            subst this
            rw [hpe] at hw2
            cases hw2
          · refine ⟨Or.inr ⟨hmem, ?_⟩, ?_⟩
            · intro d2 hd2
              have : d2 = d := Option.some.inj hd2.symm
              subst this
              exact hne
            · intro pe1 w2 hpe1 hw2
              have : pe1 = pe := (Option.some.inj hpe1).symm
              subst this
              rw [hpe] at hw2
              cases hw2
        · rintro ⟨hq, _⟩
          rcases hq with ⟨d2, hd2, hq⟩ | ⟨hmem, hfresh⟩
          · have : d2 = d := Option.some.inj hd2.symm
            subst this
            exact Or.inl hq
          · exact Or.inr ⟨hmem, hfresh d rfl⟩
      | some w =>
        have h1 : ((dbSet s k0 v (some d) now).1).expirations =
            eraseK (insK s.expirations (now + d, s.nextId) k0) (w, pe.id) := by
          simp [dbSet, hprev, hpe]
        rw [h1, mem_eraseK, mem_insK]
        constructor
        · rintro ⟨hq | ⟨hmem, hne1⟩, hne⟩
          · refine ⟨Or.inl ⟨d, rfl, hq⟩, ?_⟩
            intro pe1 w2 hpe1 hw2
            have : pe1 = pe := (Option.some.inj hpe1).symm
            subst this
            rw [hpe] at hw2
            have : w2 = w := (Option.some.inj hw2).symm
            subst this
            exact hne
          · refine ⟨Or.inr ⟨hmem, ?_⟩, ?_⟩
            · intro d2 hd2
              have : d2 = d := Option.some.inj hd2.symm
              subst this
              exact hne1
            · intro pe1 w2 hpe1 hw2
              have : pe1 = pe := (Option.some.inj hpe1).symm
              subst this
              rw [hpe] at hw2
              have : w2 = w := (Option.some.inj hw2).symm
              subst this
              exact hne
        · rintro ⟨hq, hclean⟩
          have hne : q.1 ≠ (w, pe.id) := hclean pe w rfl hpe
          rcases hq with ⟨d2, hd2, hq⟩ | ⟨hmem, hfresh⟩
          · have : d2 = d := Option.some.inj hd2.symm
            subst this
            exact ⟨Or.inl hq, hne⟩
          · exact ⟨Or.inr ⟨hmem, hfresh d rfl⟩, hne⟩

/-- `Db::set` preserves the store invariant (C3's "no orphan" argument: the
previous entry's record is removed, the freshly inserted record cannot be
the one removed because its id is fresh). -/
theorem inv_dbSet (s : DbState) (k0 : String) (v : List Nat)
    (ex : Option Nat) (now : Nat) (hs : Inv s) :
    Inv (dbSet s k0 v ex now).1 := by
  constructor
  · rw [dbSet_shutdown]; exact hs.noShutdown
  · intro k e
    rw [dbSet_entries, dbSet_nextId]
    by_cases hk : k = k0
    · rw [if_pos hk]
      intro he
      cases he
      show s.nextId < s.nextId + 1
      omega
    · rw [if_neg hk]
      intro he
      have := hs.idLt k e he
      omega
  · intro w i k hq
    rw [dbSet_exps_mem] at hq
    obtain ⟨hq, hclean⟩ := hq
    rcases hq with ⟨d, hd, hq⟩ | ⟨hmem, hfresh⟩
    · cases hq
      refine ⟨⟨s.nextId, v, (some d).map fun d => now + d⟩, ?_, rfl, rfl⟩
      rw [dbSet_entries, if_pos rfl, hd]
    · obtain ⟨e, he, hid, hw⟩ := hs.recEntry w i k hmem
      by_cases hk : k = k0
      · exfalso
        subst hk
        exact hclean e w he hw (by rw [hid])
      · exact ⟨e, by rw [dbSet_entries, if_neg hk]; exact he, hid, hw⟩
  · intro k e w he hw
    rw [dbSet_entries] at he
    rw [dbSet_exps_mem]
    by_cases hk : k = k0
    · rw [if_pos hk] at he
      cases he
      subst hk
      simp only at hw
      cases hex2 : ex with
      | none => rw [hex2] at hw; cases hw
      | some d =>
        rw [hex2] at hw
        have hnd : now + d = w := Option.some.inj hw
        subst hnd
        refine ⟨Or.inl ⟨d, rfl, rfl⟩, ?_⟩
        intro pe w2 hpe hw2 heq
        have h2 := congrArg Prod.snd heq
        simp only at h2
        have hlt := hs.idLt k pe hpe
        omega
    · rw [if_neg hk] at he
      have hrec := hs.entryRec k e w he hw
      refine ⟨Or.inr ⟨hrec, ?_⟩, ?_⟩
      · intro d hd
        have hlt := hs.idLt k e he
        simp only [ne_eq, Prod.mk.injEq, not_and]
        intro _
        omega
      · intro pe w2 hpe hw2
        intro hcontra
        have : e.id = pe.id := by
          have := congrArg Prod.snd hcontra
          simpa using this
        exact hk (hs.idInj k k0 e pe he hpe this)
  · intro k1 k2 e1 e2 h1 h2 hid
    rw [dbSet_entries] at h1 h2
    by_cases hk1 : k1 = k0 <;> by_cases hk2 : k2 = k0
    · rw [hk1, hk2]
    · exfalso
      rw [if_pos hk1] at h1
      rw [if_neg hk2] at h2
      cases h1
      have := hs.idLt k2 e2 h2
      simp only at hid
      omega
    · exfalso
      rw [if_neg hk1] at h1
      rw [if_pos hk2] at h2
      cases h2
      have := hs.idLt k1 e1 h1
      simp only at hid
      omega
    · rw [if_neg hk1] at h1
      rw [if_neg hk2] at h2
      exact hs.idInj k1 k2 e1 e2 h1 h2 hid

/-- The purge loop preserves the store invariant: each iteration removes an
entry together with exactly its expiration record. -/
theorem inv_purgeLoop :
    ∀ (fuel : Nat) (s : DbState) (now : Nat), Inv s → Inv (purgeLoop fuel s now).1 := by
  intro fuel
  induction fuel with
  | zero => intro s now hs; exact hs
  | succ fuel ih =>
    intro s now hs
    unfold purgeLoop
    cases hm : minEntry s.expirations with
    | none => exact hs
    | some p =>
      obtain ⟨⟨w, i⟩, key⟩ := p
      by_cases hn : now < w
      · simp only [if_pos hn]; exact hs
      · simp only [if_neg hn]
        apply ih
        have hmem := minEntry_mem hm
        obtain ⟨e, he, hid, hw⟩ := hs.recEntry w i key hmem
        constructor
        · exact hs.noShutdown
        · intro k e2 h2
          simp only at h2
          by_cases hk : k = key
          · rw [if_pos hk] at h2; cases h2
          · rw [if_neg hk] at h2; exact hs.idLt k e2 h2
        · intro w2 i2 k2 hq
          simp only at hq
          rw [mem_eraseK] at hq
          obtain ⟨hq, hne⟩ := hq
          obtain ⟨e2, he2, hid2, hw2⟩ := hs.recEntry w2 i2 k2 hq
          by_cases hk : k2 = key
          · exfalso
            subst hk
            have heq : e2 = e := Option.some.inj (he2.symm.trans he)
            subst heq
            apply hne
            have hww : w2 = w := Option.some.inj (hw2.symm.trans hw)
            rw [hww, ← hid2, hid]
          · exact ⟨e2, by simp only [if_neg hk]; exact he2, hid2, hw2⟩
        · intro k e2 w2 h2 hw2
          simp only at h2
          by_cases hk : k = key
          · rw [if_pos hk] at h2; cases h2
          · rw [if_neg hk] at h2
            simp only [mem_eraseK]
            refine ⟨hs.entryRec k e2 w2 h2 hw2, ?_⟩
            intro heq
            have h2id : e2.id = i := by
              have := congrArg Prod.snd heq
              simpa using this
            exact hk (hs.idInj k key e2 e h2 he (by rw [h2id, hid]))
        · intro k1 k2 e1 e2 h1 h2 hid12
          simp only at h1 h2
          by_cases hk1 : k1 = key
          · rw [if_pos hk1] at h1; cases h1
          · by_cases hk2 : k2 = key
            · rw [if_pos hk2] at h2; cases h2
            · rw [if_neg hk1] at h1
              rw [if_neg hk2] at h2
              exact hs.idInj k1 k2 e1 e2 h1 h2 hid12

/-- After `purgeLoop` with adequate fuel every surviving record expires
strictly after `now`. -/
theorem purgeLoop_future :
    ∀ (fuel : Nat) (s : DbState) (now : Nat), s.expirations.length < fuel →
      ∀ q ∈ ((purgeLoop fuel s now).1).expirations, now < q.1.1 := by
  intro fuel
  induction fuel with
  | zero => intro s now h; exact absurd h (Nat.not_lt_zero _)
  | succ fuel ih =>
    intro s now hlen q
    unfold purgeLoop
    cases hm : minEntry s.expirations with
    | none =>
      have hnil : s.expirations = [] := minEntry_eq_none hm
      intro hq
      rw [hnil] at hq
      cases hq
    | some p =>
      obtain ⟨⟨w, i⟩, key⟩ := p
      by_cases hn : now < w
      · simp only [if_pos hn]
        intro hq
        have hlb := minEntry_lb hm q hq
        unfold pairLt at hlb
        push_neg at hlb
        simp only at hlb
        omega
      · simp only [if_neg hn]
        intro hq
        refine ih _ now ?_ q hq
        have hlt := eraseK_length_lt (minEntry_mem hm)
        simp only at hlt ⊢
        omega

/-- `purgeLoop` never modifies surviving entries. -/
theorem purgeLoop_entries_mono :
    ∀ (fuel : Nat) (s : DbState) (now : Nat) (k : String) (e : Entry),
      ((purgeLoop fuel s now).1).entries k = some e → s.entries k = some e := by
  intro fuel
  induction fuel with
  | zero => intro s now k e h; exact h
  | succ fuel ih =>
    intro s now k e h
    unfold purgeLoop at h
    cases hm : minEntry s.expirations with
    | none => rw [hm] at h; exact h
    | some p =>
      obtain ⟨⟨w, i⟩, key⟩ := p
      rw [hm] at h
      by_cases hn : now < w
      · simp only [if_pos hn] at h; exact h
      · simp only [if_neg hn] at h
        have h2 := ih _ now k e h
        simp only at h2
        by_cases hk : k = key
        · rw [if_pos hk] at h2; cases h2
        · rw [if_neg hk] at h2; exact h2

/-- `Shared::purge_expired_keys` on a live (non-shut-down) state runs the
purge loop with adequate fuel. -/
theorem purgeExpiredKeys_live (s : DbState) (now : Nat) (h : s.shutdown = false) :
    purgeExpiredKeys s now = purgeLoop (s.expirations.length + 1) s now := by
  simp [purgeExpiredKeys, h]

/-- Every step of a trace preserves the store invariant. -/
theorem inv_applyOp (s : DbState) (op : Op) (hs : Inv s) : Inv (applyOp s op) := by
  cases op with
  | set k v ex now => exact inv_dbSet s k v ex now hs
  | get _ => exact hs
  | publish _ _ => exact hs
  | subscribe c =>
    show Inv (dbSubscribe s c)
    unfold dbSubscribe
    cases hc : s.pubSub c with
    | none => exact ⟨hs.noShutdown, hs.idLt, hs.recEntry, hs.entryRec, hs.idInj⟩
    | some n => exact ⟨hs.noShutdown, hs.idLt, hs.recEntry, hs.entryRec, hs.idInj⟩
  | dropReceiver c =>
    show Inv (dbDropReceiver s c)
    unfold dbDropReceiver
    cases hc : s.pubSub c with
    | none => exact hs
    | some n =>
      cases n with
      | zero => exact hs
      | succ m => exact ⟨hs.noShutdown, hs.idLt, hs.recEntry, hs.entryRec, hs.idInj⟩
  | purge now =>
    show Inv (purgeExpiredKeys s now).1
    rw [purgeExpiredKeys_live s now hs.noShutdown]
    exact inv_purgeLoop _ s now hs

/-- Every state reached by a trace of store operations satisfies the
invariant. -/
theorem inv_execTrace (tr : List Op) : Inv (execTrace tr) := by
  have main : ∀ (l : List Op) (s : DbState), Inv s → Inv (l.foldl applyOp s) := by
    intro l
    induction l with
    | nil => intro s hs; exact hs
    | cons op rest ih => intro s hs; exact ih (applyOp s op) (inv_applyOp s op hs)
  exact main tr initState inv_init

/-! ## Claim C3 -/

/-- C3: in every store state reachable from the initial state by `set`,
`get`, `subscribe`, `publish` (plus receiver drops) and reaper purge steps,
an `(instant, id)` pair is a key of the expiration index exactly when some
live entry has that id and that expiration instant.  In particular a `set`
over an existing key leaves no orphaned record: the old record is removed
and cannot collide with the freshly inserted one, whose id is fresh
(`inv_dbSet`). -/
theorem expiration_index_iff (tr : List Op) (w i : Nat) :
    (∃ k, ((w, i), k) ∈ (execTrace tr).expirations) ↔
      ∃ k e, (execTrace tr).entries k = some e ∧ e.id = i ∧ e.expiresAt = some w := by
  have hinv := inv_execTrace tr
  constructor
  · rintro ⟨k, hk⟩
    obtain ⟨e, he, hid, hw⟩ := hinv.recEntry w i k hk
    exact ⟨k, e, he, hid, hw⟩
  · rintro ⟨k, e, he, hid, hw⟩
    refine ⟨k, ?_⟩
    rw [← hid]
    exact hinv.entryRec k e w he hw

/-! ## Claim C6 -/

/-- C6: `set(k, v, Some d)` on any reachable state, followed by a reaper
purge at an instant `now2` at or past the expiration instant `now + d`,
removes the entry — `get(k)` returns `None` — and its expiration-index
record. -/
theorem set_expire_purged (tr : List Op) (k : String) (v : List Nat)
    (d now now2 : Nat) (h : now + d ≤ now2) :
    dbGet ((purgeExpiredKeys (dbSet (execTrace tr) k v (some d) now).1 now2).1) k = none
    ∧ ∀ kk, ((now + d, (execTrace tr).nextId), kk) ∉
        ((purgeExpiredKeys (dbSet (execTrace tr) k v (some d) now).1 now2).1).expirations := by
  have hinv : Inv (execTrace tr) := inv_execTrace tr
  have hinv1 : Inv (dbSet (execTrace tr) k v (some d) now).1 :=
    inv_dbSet _ k v (some d) now hinv
  rw [purgeExpiredKeys_live _ now2 hinv1.noShutdown]
  have hinv2 : Inv (purgeLoop ((dbSet (execTrace tr) k v (some d) now).1.expirations.length + 1)
      (dbSet (execTrace tr) k v (some d) now).1 now2).1 :=
    inv_purgeLoop _ _ now2 hinv1
  have hfuture := purgeLoop_future
    ((dbSet (execTrace tr) k v (some d) now).1.expirations.length + 1)
    (dbSet (execTrace tr) k v (some d) now).1 now2 (by omega)
  constructor
  · cases hg : (purgeLoop ((dbSet (execTrace tr) k v (some d) now).1.expirations.length + 1)
        (dbSet (execTrace tr) k v (some d) now).1 now2).1.entries k with
    | none => simp [dbGet, hg]
    | some e =>
      exfalso
      have he1 := purgeLoop_entries_mono _ _ now2 k e hg
      rw [dbSet_entries, if_pos rfl] at he1
      have hee : e = ⟨(execTrace tr).nextId, v, some (now + d)⟩ :=
        (Option.some.inj he1).symm
      have hrec := hinv2.entryRec k e (now + d) hg (by rw [hee])
      have := hfuture _ hrec
      simp only at this
      omega
  · intro kk hq
    have := hfuture _ hq
    simp only at this
    omega

/-- Witness for C6 at concrete inputs: key `"a"` set at instant 0 with
duration 3 is gone after the purge runs at instant 3. -/
theorem set_expire_purged_witness :
    dbGet ((purgeExpiredKeys (dbSet (execTrace []) "a" [7] (some 3) 0).1 3).1) "a" = none :=
  (set_expire_purged [] "a" [7] 3 0 3 (by decide)).1

/-! ## Decimal-digit lemmas (for Claim C4) -/

theorem decDigitsCore_spec :
    ∀ (n : Nat), ∀ (fuel : Nat) (acc : List Nat), n < fuel →
      ∃ ds, decDigitsCore fuel n acc = ds ++ acc ∧ ds ≠ []
        ∧ (∀ b ∈ ds, 48 ≤ b ∧ b ≤ 57)
        ∧ digitsVal ds = n
        ∧ (n < 10 → ds.length = 1)
        ∧ (n < 100 → ds.length ≤ 2)
        ∧ (10 ≤ n → 2 ≤ ds.length)
        ∧ (100 ≤ n → 3 ≤ ds.length) := by
  intro n
  induction n using Nat.strong_induction_on with
  | _ n ih =>
    intro fuel acc hfuel
    cases fuel with
    | zero => exact absurd hfuel (Nat.not_lt_zero n)
    | succ f =>
      by_cases h10 : n < 10
      · refine ⟨[48 + n], ?_, by simp, ?_, ?_, fun _ => rfl, fun _ => by simp, ?_, ?_⟩
        · simp only [decDigitsCore, if_pos h10]
          rfl
        · intro b hb
          simp only [List.mem_singleton] at hb
          omega
        · simp only [digitsVal, List.foldl_cons, List.foldl_nil]
          omega
        · intro h
          simp only [List.length_singleton]
          omega
        · intro h
          omega
      · obtain ⟨ds, hds, hne, hrange, hval, hlen1, hlen2, hlenm, hlen3⟩ :=
          ih (n / 10) (by omega) f ((48 + n % 10) :: acc) (by omega)
        have hdsnz : ds.length ≠ 0 := fun hz => hne (List.length_eq_zero.mp hz)
        refine ⟨ds ++ [48 + n % 10], ?_, by simp, ?_, ?_, ?_, ?_, ?_, ?_⟩
        · simp only [decDigitsCore, if_neg h10]
          rw [hds, List.append_assoc]
          rfl
        · intro b hb
          rcases List.mem_append.mp hb with hb | hb
          · exact hrange b hb
          · simp only [List.mem_singleton] at hb
            omega
        · simp only [digitsVal] at hval ⊢
          rw [List.foldl_append]
          simp only [List.foldl_cons, List.foldl_nil]
          rw [hval]
          omega
        · intro h
          omega
        · intro h
          have hq : n / 10 < 10 := by omega
          have := hlen1 hq
          simp [this]
        · intro h
          simp only [List.length_append, List.length_singleton]
          omega
        · intro h
          have hq : 10 ≤ n / 10 := by omega
          have h2 := hlenm hq
          simp only [List.length_append, List.length_singleton]
          omega

theorem decDigits_props (n : Nat) :
    decDigits n ≠ [] ∧ (∀ b ∈ decDigits n, 48 ≤ b ∧ b ≤ 57)
    ∧ digitsVal (decDigits n) = n
    ∧ (n < 100 → (decDigits n).length ≤ 2)
    ∧ (100 ≤ n → 3 ≤ (decDigits n).length) := by
  obtain ⟨ds, hds, hne, hrange, hval, _, hlen2, _, hlen3⟩ :=
    decDigitsCore_spec n (n + 1) [] (by omega)
  rw [List.append_nil] at hds
  rw [decDigits, hds]
  exact ⟨hne, hrange, hval, hlen2, hlen3⟩

/-- The `atoi` loop applied to the digit expansion of a two-digit-or-less
number recovers the number. -/
theorem atoi_decDigits (n : Nat) (h : n ≤ 99) : atoiM (decDigits n) = some n := by
  obtain ⟨hne, hrange, hval, hlen2, _⟩ := decDigits_props n
  have hl : (decDigits n).length = 1 ∨ (decDigits n).length = 2 := by
    have := hlen2 (by omega)
    have : (decDigits n).length ≠ 0 := by
      intro hz
      exact hne (List.length_eq_zero.mp hz)
    omega
  rcases hl with hl | hl
  · obtain ⟨a, ha⟩ := List.length_eq_one.mp hl
    rw [ha] at hval hrange ⊢
    have hr := hrange a (by simp)
    simp only [digitsVal, List.foldl_cons, List.foldl_nil] at hval
    rw [atoiM]
    simp only [atoiLoop, if_pos (by omega : 48 ≤ a ∧ a ≤ 57)]
    have hmod : (0 * 10 + (a - 48)) % 2 ^ 64 = a - 48 := by omega
    rw [hmod]
    simp
    omega
  · obtain ⟨a, b, hab⟩ := List.length_eq_two.mp hl
    rw [hab] at hval hrange ⊢
    have hra := hrange a (by simp)
    have hrb := hrange b (by simp)
    simp only [digitsVal, List.foldl_cons, List.foldl_nil] at hval
    rw [atoiM]
    simp only [atoiLoop, if_pos (by omega : 48 ≤ a ∧ a ≤ 57),
      if_pos (by omega : 48 ≤ b ∧ b ≤ 57)]
    have hm1 : (0 * 10 + (a - 48)) % 2 ^ 64 = a - 48 := by omega
    rw [hm1]
    have hm2 : ((a - 48) * 10 + (b - 48)) % 2 ^ 64 = (a - 48) * 10 + (b - 48) := by
      omega
    rw [hm2]
    simp
    omega

/-- What a successful `write_decimal` produced: the digit string with its
`\r\n`, and the two-digit bound the buffer typo imposes. -/
theorem writeDecimal_ok {v : Nat} {out : List Nat}
    (h : writeDecimal v = .ok out) :
    out = decDigits v ++ [13, 10] ∧ v ≤ 99 := by
  simp only [writeDecimal] at h
  by_cases hl : (decDigits v).length ≤ 2
  · rw [if_pos hl] at h
    have hinj := Except.ok.inj h
    refine ⟨hinj.symm, ?_⟩
    by_contra hc
    have := (decDigits_props v).2.2.2.2 (by omega)
    omega
  · rw [if_neg hl] at h
    cases h

/-! ## `noPair` lemmas -/

theorem noPair_of_no13 {l : List Nat} (h : ∀ b ∈ l, b ≠ 13) : noPair l := by
  intro j hj
  obtain ⟨h1, _⟩ := hj
  exact h 13 (List.get?_mem h1) rfl

theorem noPair_digits (v : Nat) : noPair (decDigits v) := by
  apply noPair_of_no13
  intro b hb
  have := (decDigits_props v).2.1 b hb
  omega

theorem noPair_of_crlfFree : ∀ {l : List Nat}, crlfFree l = true → noPair l := by
  intro l
  induction l with
  | nil =>
    intro _ j hj
    obtain ⟨h1, _⟩ := hj
    cases h1
  | cons b rest ih =>
    intro h
    cases rest with
    | nil =>
      intro j hj
      obtain ⟨h1, h2⟩ := hj
      cases j with
      | zero => cases h2
      | succ j => cases h1
    | cons c rest2 =>
      rw [crlfFree] at h
      simp only [Bool.and_eq_true, Bool.not_eq_true'] at h
      obtain ⟨hpair, hrest⟩ := h
      intro j hj
      obtain ⟨h1, h2⟩ := hj
      cases j with
      | zero =>
        simp only [List.get?_cons_zero, List.get?_cons_succ] at h1 h2
        have hb : b = 13 := Option.some.inj h1
        have hc : c = 10 := Option.some.inj h2
        rw [hb, hc] at hpair
        simp at hpair
      | succ j =>
        simp only [List.get?_cons_succ] at h1 h2
        exact ih hrest j ⟨h1, h2⟩

theorem get?_take_some {l : List Nat} {k j x : Nat}
    (h : (l.take k).get? j = some x) : j < k ∧ l.get? j = some x := by
  by_cases hj : j < k
  · refine ⟨hj, ?_⟩
    rw [List.get?_take hj] at h
    exact h
  · exfalso
    have : (l.take k).get? j = none := by
      apply List.get?_eq_none.mpr
      have := List.length_take_le k l
      omega
    rw [this] at h
    cases h

/-- A proper front piece of `line ++ \r\n` contains no full `\r\n` pair. -/
theorem noPair_take_line {s : List Nat} (hs : noPair s) {k : Nat}
    (hk : k ≤ s.length + 1) : noPair ((s ++ [13, 10]).take k) := by
  intro j hj
  obtain ⟨h1, h2⟩ := hj
  obtain ⟨hjk1, h1'⟩ := get?_take_some h1
  obtain ⟨hjk2, h2'⟩ := get?_take_some h2
  have hj1 : j < s.length := by omega
  rw [List.get?_append hj1] at h1'
  by_cases hj2 : j + 1 < s.length
  · rw [List.get?_append hj2] at h2'
    exact hs j ⟨h1', h2'⟩
  · have hj2e : j + 1 = s.length := by omega
    rw [List.get?_append_right (by omega)] at h2'
    rw [hj2e, Nat.sub_self] at h2'
    cases h2'

/-- Generalization of `noPair_take_line` with an arbitrary tail after the
`\r\n`: a truncation reaching at most one byte past the pair-free header
contains no full `\r\n` pair. -/
theorem noPair_take_head {dd : List Nat} (hdd : noPair dd) (T : List Nat) {j : Nat}
    (hj : j ≤ dd.length + 1) : noPair (List.take j (dd ++ 13 :: 10 :: T)) := by
  intro i hi
  obtain ⟨h1, h2⟩ := hi
  obtain ⟨hik1, h1'⟩ := get?_take_some h1
  obtain ⟨hik2, h2'⟩ := get?_take_some h2
  have hi1 : i < dd.length := by omega
  rw [List.get?_append hi1] at h1'
  by_cases hi2 : i + 1 < dd.length
  · rw [List.get?_append hi2] at h2'
    exact hdd i ⟨h1', h2'⟩
  · have hie : i + 1 = dd.length := by omega
    rw [List.get?_append_right (by omega)] at h2'
    rw [hie, Nat.sub_self] at h2'
    cases h2'

/-! ## Cursor-primitive lemmas -/

theorem get?_boundary (pre : List Nat) (x : Nat) (l : List Nat) :
    (pre ++ x :: l).get? pre.length = some x := by
  rw [List.get?_append_right (Nat.le_refl _), Nat.sub_self]
  rfl

theorem getU8_at (pre : List Nat) (x : Nat) (l : List Nat) (pos : Nat)
    (hpos : pos = pre.length) : getU8 (pre ++ x :: l) pos = .ok (x, pos + 1) := by
  subst hpos
  rw [getU8, get?_boundary]

theorem getU8_end (pre : List Nat) (pos : Nat) (hpos : pos = pre.length) :
    getU8 pre pos = .error .incomplete := by
  subst hpos
  rw [getU8, List.get?_eq_none.mpr (Nat.le_refl _)]

theorem peekU8_at (pre : List Nat) (x : Nat) (l : List Nat) (pos : Nat)
    (hpos : pos = pre.length) : peekU8 (pre ++ x :: l) pos = .ok x := by
  subst hpos
  rw [peekU8, get?_boundary]

theorem peekU8_end (pre : List Nat) (pos : Nat) (hpos : pos = pre.length) :
    peekU8 pre pos = .error .incomplete := by
  subst hpos
  rw [peekU8, List.get?_eq_none.mpr (Nat.le_refl _)]

theorem skip_ok (buf : List Nat) (pos n : Nat) (h : n ≤ buf.length - pos) :
    skip buf pos n = .ok (pos + n) := by
  rw [skip, if_neg (by omega)]

theorem skip_short (buf : List Nat) (pos n : Nat) (h : buf.length - pos < n) :
    skip buf pos n = .error .incomplete := by
  rw [skip, if_pos h]

/-! ## Line-scanner lemmas -/

theorem findCRLF_found :
    ∀ (fuel i j : Nat) (buf : List Nat), i ≤ j → j < i + fuel →
      (buf.get? j = some 13 ∧ buf.get? (j + 1) = some 10) →
      (∀ j2, i ≤ j2 → j2 < j →
        ¬ (buf.get? j2 = some 13 ∧ buf.get? (j2 + 1) = some 10)) →
      findCRLF buf fuel i = some j := by
  intro fuel
  induction fuel with
  | zero =>
    intro i j buf h1 h2 _ _
    exact absurd h2 (by omega)
  | succ fuel ih =>
    intro i j buf h1 h2 hj hmin
    rw [findCRLF]
    by_cases hij : i = j
    · subst hij
      rw [if_pos hj]
    · have hlt : i < j := lt_of_le_of_ne h1 hij
      rw [if_neg (hmin i (Nat.le_refl i) hlt)]
      exact ih (i + 1) j buf (by omega) (by omega) hj
        (fun j2 ha hb => hmin j2 (by omega) hb)

theorem findCRLF_none :
    ∀ (fuel i : Nat) (buf : List Nat),
      (∀ j, i ≤ j → ¬ (buf.get? j = some 13 ∧ buf.get? (j + 1) = some 10)) →
      findCRLF buf fuel i = none := by
  intro fuel
  induction fuel with
  | zero => intro i buf _; rfl
  | succ fuel ih =>
    intro i buf h
    rw [findCRLF, if_neg (h i (Nat.le_refl i))]
    exact ih (i + 1) buf (fun j hj => h j (by omega))

/-- `get_line` on a buffer holding a complete `\r\n`-terminated line whose
body contains no `\r\n`: the line is returned and the cursor lands just past
the terminator. -/
theorem getLine_complete (pre s rest : List Nat) (pos : Nat)
    (hpos : pos = pre.length) (hs : noPair s) :
    getLine (pre ++ s ++ 13 :: 10 :: rest) pos = .ok (s, pos + s.length + 2) := by
  subst hpos
  have hassoc : pre ++ s ++ 13 :: 10 :: rest = pre ++ (s ++ 13 :: 10 :: rest) := by
    rw [List.append_assoc]
  have hlen : (pre ++ s ++ 13 :: 10 :: rest).length =
      pre.length + s.length + 2 + rest.length := by
    simp
    omega
  have h13 : (pre ++ s ++ 13 :: 10 :: rest).get? (pre.length + s.length) = some 13 := by
    rw [hassoc, List.get?_append_right (by omega)]
    have : pre.length + s.length - pre.length = s.length := by omega
    rw [this, List.get?_append_right (Nat.le_refl _), Nat.sub_self]
    rfl
  have h10 : (pre ++ s ++ 13 :: 10 :: rest).get? (pre.length + s.length + 1) = some 10 := by
    rw [hassoc, List.get?_append_right (by omega)]
    have : pre.length + s.length + 1 - pre.length = s.length + 1 := by omega
    rw [this, List.get?_append_right (by omega)]
    have : s.length + 1 - s.length = 1 := by omega
    rw [this]
    rfl
  have hmin : ∀ j2, pre.length ≤ j2 → j2 < pre.length + s.length →
      ¬ ((pre ++ s ++ 13 :: 10 :: rest).get? j2 = some 13
        ∧ (pre ++ s ++ 13 :: 10 :: rest).get? (j2 + 1) = some 10) := by
    intro j2 ha hb hpair
    obtain ⟨p1, p2⟩ := hpair
    rw [hassoc, List.get?_append_right ha] at p1
    by_cases hcase : j2 + 1 < pre.length + s.length
    · rw [hassoc, List.get?_append_right (by omega)] at p2
      rw [List.get?_append (by omega)] at p1
      rw [List.get?_append (by omega)] at p2
      have : j2 + 1 - pre.length = (j2 - pre.length) + 1 := by omega
      rw [this] at p2
      exact hs (j2 - pre.length) ⟨p1, p2⟩
    · have hj2 : j2 + 1 = pre.length + s.length := by omega
      rw [hassoc, List.get?_append_right (by omega)] at p2
      have : j2 + 1 - pre.length = s.length := by omega
      rw [this, List.get?_append_right (Nat.le_refl _), Nat.sub_self] at p2
      cases p2
  have hfound := findCRLF_found
    ((pre ++ s ++ 13 :: 10 :: rest).length - 1 - pre.length)
    pre.length (pre.length + s.length) (pre ++ s ++ 13 :: 10 :: rest)
    (by omega) (by omega) ⟨h13, h10⟩ hmin
  rw [getLine, hfound]
  have hdrop : (pre ++ s ++ 13 :: 10 :: rest).drop pre.length = s ++ 13 :: 10 :: rest := by
    rw [hassoc, List.drop_left]
  have htake : (s ++ 13 :: 10 :: rest).take (pre.length + s.length - pre.length) = s := by
    have : pre.length + s.length - pre.length = s.length := by omega
    rw [this, List.take_left]
  rw [hdrop]
  show Except.ok ((s ++ 13 :: 10 :: rest).take (pre.length + s.length - pre.length),
      pre.length + s.length + 2) = Except.ok (s, pre.length + s.length + 2)
  rw [htake]

/-- `get_line` on a buffer whose remainder after `pos` contains no full
`\r\n` pair: incomplete. -/
theorem getLine_incomplete (pre t : List Nat) (pos : Nat)
    (hpos : pos = pre.length) (ht : noPair t) :
    getLine (pre ++ t) pos = .error .incomplete := by
  subst hpos
  have hnone : findCRLF (pre ++ t) ((pre ++ t).length - 1 - pre.length) pre.length = none := by
    apply findCRLF_none
    intro j hj hpair
    obtain ⟨p1, p2⟩ := hpair
    rw [List.get?_append_right hj] at p1
    rw [List.get?_append_right (by omega)] at p2
    have : j + 1 - pre.length = (j - pre.length) + 1 := by omega
    rw [this] at p2
    exact ht (j - pre.length) ⟨p1, p2⟩
  rw [getLine, hnone]

/-- `get_decimal` over the emitted digits of `v ≤ 99` followed by `\r\n`. -/
theorem getDecimal_complete (pre rest : List Nat) (v pos : Nat)
    (hpos : pos = pre.length) (hv : v ≤ 99) :
    getDecimal (pre ++ decDigits v ++ 13 :: 10 :: rest) pos =
      .ok (v, pos + (decDigits v).length + 2) := by
  rw [getDecimal, getLine_complete pre (decDigits v) rest pos hpos (noPair_digits v)]
  show (match atoiM (decDigits v) with
    | none => Except.error (FrameError.other "protocol error; invalid frame format")
    | some v2 => Except.ok (v2, pos + (decDigits v).length + 2)) =
    Except.ok (v, pos + (decDigits v).length + 2)
  rw [atoi_decDigits v hv]

/-- `get_decimal` on a pair-free remainder: incomplete. -/
theorem getDecimal_incomplete (pre t : List Nat) (pos : Nat)
    (hpos : pos = pre.length) (ht : noPair t) :
    getDecimal (pre ++ t) pos = .error .incomplete := by
  rw [getDecimal, getLine_incomplete pre t pos hpos ht]

theorem getU8_cons (pre l : List Nat) (x : Nat) (pos : Nat)
    (hpos : pos = pre.length) : getU8 ((pre ++ [x]) ++ l) pos = .ok (x, pos + 1) := by
  rw [List.append_assoc]
  exact getU8_at pre x l pos hpos

theorem get?_second (pre : List Nat) (x y : Nat) (l : List Nat) :
    (pre ++ x :: y :: l).get? (pre.length + 1) = some y := by
  rw [List.get?_append_right (by omega)]
  have : pre.length + 1 - pre.length = 1 := by omega
  rw [this]
  rfl

/-! ## `Frame::check` accepts a complete encoding (Claim C4) -/

/-- A complete `write_value` encoding embedded at position `pos` of a larger
buffer is accepted by `check` in full, for any fuel (non-array frames never
recurse). -/
theorem checkVal_complete :
    ∀ (f : Frame) (e : List Nat), writeValue f = .ok e → textsCrlfFree f = true →
    ∀ (fuel : Nat) (pre rest : List Nat) (pos : Nat), pos = pre.length →
      checkF (fuel + 1) (pre ++ e ++ rest) pos = .ok (pos + e.length) := by
  intro f e he hc fuel pre rest pos hpos
  subst hpos
  cases f with
  | simple s =>
    simp only [writeValue] at he
    have he2 := Except.ok.inj he
    subst he2
    rw [textsCrlfFree] at hc
    have hs : noPair s := noPair_of_crlfFree hc
    have hbuf : pre ++ (43 :: s ++ [13, 10]) ++ rest =
        pre ++ 43 :: (s ++ 13 :: 10 :: rest) := by simp
    rw [hbuf, checkF, getU8_at pre 43 (s ++ 13 :: 10 :: rest) pre.length rfl]
    norm_num
    have hbuf2 : pre ++ 43 :: (s ++ 13 :: 10 :: rest) =
        (pre ++ [43]) ++ s ++ 13 :: 10 :: rest := by simp
    rw [hbuf2, getLine_complete (pre ++ [43]) s rest (pre.length + 1) (by simp) hs]
    simp
    omega
  | error s =>
    simp only [writeValue] at he
    have he2 := Except.ok.inj he
    subst he2
    rw [textsCrlfFree] at hc
    have hs : noPair s := noPair_of_crlfFree hc
    have hbuf : pre ++ (45 :: s ++ [13, 10]) ++ rest =
        pre ++ 45 :: (s ++ 13 :: 10 :: rest) := by simp
    rw [hbuf, checkF, getU8_at pre 45 (s ++ 13 :: 10 :: rest) pre.length rfl]
    norm_num
    have hbuf2 : pre ++ 45 :: (s ++ 13 :: 10 :: rest) =
        (pre ++ [45]) ++ s ++ 13 :: 10 :: rest := by simp
    rw [hbuf2, getLine_complete (pre ++ [45]) s rest (pre.length + 1) (by simp) hs]
    simp
    omega
  | integer v =>
    simp only [writeValue] at he
    cases hwd : writeDecimal v with
    | error msg => rw [hwd] at he; cases he
    | ok d =>
      rw [hwd] at he
      have he2 := Except.ok.inj he
      subst he2
      obtain ⟨hd, hv⟩ := writeDecimal_ok hwd
      subst hd
      have hbuf : pre ++ (58 :: (decDigits v ++ [13, 10])) ++ rest =
          pre ++ 58 :: (decDigits v ++ 13 :: 10 :: rest) := by simp
      rw [hbuf, checkF, getU8_at pre 58 (decDigits v ++ 13 :: 10 :: rest) pre.length rfl]
      norm_num
      have hbuf2 : pre ++ 58 :: (decDigits v ++ 13 :: 10 :: rest) =
          (pre ++ [58]) ++ decDigits v ++ 13 :: 10 :: rest := by simp
      rw [hbuf2, getDecimal_complete (pre ++ [58]) rest v (pre.length + 1) (by simp) hv]
      simp
      omega
  | null =>
    simp only [writeValue] at he
    have he2 := Except.ok.inj he
    subst he2
    have hbuf : pre ++ [36, 45, 49, 13, 10] ++ rest =
        pre ++ 36 :: 45 :: 49 :: 13 :: 10 :: rest := by simp
    rw [hbuf, checkF, getU8_at pre 36 (45 :: 49 :: 13 :: 10 :: rest) pre.length rfl]
    norm_num
    rw [peekU8, get?_second pre 36 45 (49 :: 13 :: 10 :: rest)]
    norm_num
    rw [skip_ok _ _ _ (by simp; omega)]
  | bulk b =>
    simp only [writeValue] at he
    cases hwd : writeDecimal b.length with
    | error msg => rw [hwd] at he; cases he
    | ok d =>
      rw [hwd] at he
      have he2 := Except.ok.inj he
      subst he2
      obtain ⟨hd, hn⟩ := writeDecimal_ok hwd
      subst hd
      obtain ⟨d0, dtl, hd0⟩ := List.exists_cons_of_ne_nil (decDigits_props b.length).1
      have hd0r := (decDigits_props b.length).2.1 d0
        (by rw [hd0]; exact List.mem_cons_self d0 dtl)
      have hbuf : pre ++ (36 :: (decDigits b.length ++ [13, 10]) ++ b ++ [13, 10]) ++ rest =
          pre ++ 36 :: (decDigits b.length ++ 13 :: 10 :: (b ++ 13 :: 10 :: rest)) := by
        simp
      rw [hbuf, checkF,
        getU8_at pre 36 (decDigits b.length ++ 13 :: 10 :: (b ++ 13 :: 10 :: rest)) pre.length rfl]
      norm_num
      have hpeek : (pre ++ 36 :: (decDigits b.length ++
          13 :: 10 :: (b ++ 13 :: 10 :: rest))).get? (pre.length + 1) = some d0 := by
        rw [hd0]
        have hshape : pre ++ 36 :: ((d0 :: dtl) ++ 13 :: 10 :: (b ++ 13 :: 10 :: rest)) =
            pre ++ 36 :: d0 :: (dtl ++ 13 :: 10 :: (b ++ 13 :: 10 :: rest)) := by simp
        rw [hshape]
        exact get?_second pre 36 d0 _
      rw [peekU8, hpeek]
      have h45 : ¬ d0 = 45 := by omega
      simp only [if_neg h45]
      have hbuf2 : pre ++ 36 :: (decDigits b.length ++ 13 :: 10 :: (b ++ 13 :: 10 :: rest)) =
          (pre ++ [36]) ++ decDigits b.length ++ 13 :: 10 :: (b ++ 13 :: 10 :: rest) := by
        simp
      rw [hbuf2, getDecimal_complete (pre ++ [36]) (b ++ 13 :: 10 :: rest) b.length
        (pre.length + 1) (by simp) hn]
      show skip (pre ++ [36] ++ decDigits b.length ++ 13 :: 10 :: (b ++ 13 :: 10 :: rest))
          (pre.length + 1 + (decDigits b.length).length + 2) (b.length + 2) = _
      rw [skip_ok _ _ _ (by simp; omega)]
      simp
      omega
  | array xs =>
    simp only [writeValue] at he
    cases he

theorem get?_after2 (pre : List Nat) (x : Nat) (L : List Nat) :
    (pre ++ x :: L).get? (pre.length + 1) = L.get? 0 := by
  rw [List.get?_append_right (by omega)]
  have h1 : pre.length + 1 - pre.length = 1 := by omega
  rw [h1]
  rfl

/-! ## `Frame::check` reports Incomplete on every strict truncation -/

/-- A strictly truncated `write_value` encoding, sitting at the very end of
the buffer, makes `check` report `Incomplete`, for any fuel. -/
theorem checkVal_truncated :
    ∀ (f : Frame) (e : List Nat), writeValue f = .ok e → textsCrlfFree f = true →
    ∀ (fuel : Nat) (pre : List Nat) (k : Nat) (pos : Nat), pos = pre.length →
      k < e.length →
      checkF (fuel + 1) (pre ++ e.take k) pos = .error .incomplete := by
  intro f e he hc fuel pre k pos hpos hk
  subst hpos
  cases f with
  | simple s =>
    simp only [writeValue] at he
    have he2 := Except.ok.inj he
    subst he2
    rw [textsCrlfFree] at hc
    have hs : noPair s := noPair_of_crlfFree hc
    cases k with
    | zero =>
      rw [List.take_zero, List.append_nil, checkF, getU8_end pre pre.length rfl]
    | succ k2 =>
      have ht : (43 :: s ++ [13, 10]).take (k2 + 1) = 43 :: (s ++ [13, 10]).take k2 := by
        rw [List.cons_append, List.take_succ_cons]
      rw [ht, checkF, getU8_at pre 43 (List.take k2 (s ++ [13, 10])) pre.length rfl]
      norm_num
      have hk2 : k2 ≤ s.length + 1 := by
        simp only [List.length_append, List.length_cons] at hk
        simp at hk
        omega
      have hbuf2 : pre ++ 43 :: ((s ++ [13, 10]).take k2) =
          (pre ++ [43]) ++ (s ++ [13, 10]).take k2 := by simp
      rw [hbuf2, getLine_incomplete (pre ++ [43]) _ (pre.length + 1) (by simp)
        (noPair_take_line hs hk2)]
  | error s =>
    simp only [writeValue] at he
    have he2 := Except.ok.inj he
    subst he2
    rw [textsCrlfFree] at hc
    have hs : noPair s := noPair_of_crlfFree hc
    cases k with
    | zero =>
      rw [List.take_zero, List.append_nil, checkF, getU8_end pre pre.length rfl]
    | succ k2 =>
      have ht : (45 :: s ++ [13, 10]).take (k2 + 1) = 45 :: (s ++ [13, 10]).take k2 := by
        rw [List.cons_append, List.take_succ_cons]
      rw [ht, checkF, getU8_at pre 45 (List.take k2 (s ++ [13, 10])) pre.length rfl]
      norm_num
      have hk2 : k2 ≤ s.length + 1 := by
        simp only [List.length_append, List.length_cons] at hk
        simp at hk
        omega
      have hbuf2 : pre ++ 45 :: ((s ++ [13, 10]).take k2) =
          (pre ++ [45]) ++ (s ++ [13, 10]).take k2 := by simp
      rw [hbuf2, getLine_incomplete (pre ++ [45]) _ (pre.length + 1) (by simp)
        (noPair_take_line hs hk2)]
  | integer v =>
    simp only [writeValue] at he
    cases hwd : writeDecimal v with
    | error msg => rw [hwd] at he; cases he
    | ok d =>
      rw [hwd] at he
      have he2 := Except.ok.inj he
      subst he2
      obtain ⟨hd, hv⟩ := writeDecimal_ok hwd
      subst hd
      cases k with
      | zero =>
        rw [List.take_zero, List.append_nil, checkF, getU8_end pre pre.length rfl]
      | succ k2 =>
        have ht : (58 :: (decDigits v ++ [13, 10])).take (k2 + 1) =
            58 :: (decDigits v ++ [13, 10]).take k2 := rfl
        rw [ht, checkF, getU8_at pre 58 (List.take k2 (decDigits v ++ [13, 10])) pre.length rfl]
        norm_num
        have hk2 : k2 ≤ (decDigits v).length + 1 := by
          simp only [List.length_cons, List.length_append] at hk
          simp at hk
          omega
        have hbuf2 : pre ++ 58 :: ((decDigits v ++ [13, 10]).take k2) =
            (pre ++ [58]) ++ (decDigits v ++ [13, 10]).take k2 := by simp
        rw [hbuf2, getDecimal_incomplete (pre ++ [58]) _ (pre.length + 1) (by simp)
          (noPair_take_line (noPair_digits v) hk2)]
  | null =>
    simp only [writeValue] at he
    have he2 := Except.ok.inj he
    subst he2
    simp only [List.length_cons, List.length_nil] at hk
    interval_cases k
    · rw [List.take_zero, List.append_nil, checkF, getU8_end pre pre.length rfl]
    · show checkF (fuel + 1) (pre ++ [36]) pre.length = .error .incomplete
      rw [checkF, getU8_at pre 36 [] pre.length rfl]
      norm_num
      rw [peekU8, List.get?_eq_none.mpr (by simp)]
    · show checkF (fuel + 1) (pre ++ [36, 45]) pre.length = .error .incomplete
      rw [checkF, getU8_at pre 36 [45] pre.length rfl]
      norm_num
      rw [peekU8, get?_second pre 36 45 []]
      norm_num
      rw [skip_short _ _ _ (by simp)]
    · show checkF (fuel + 1) (pre ++ [36, 45, 49]) pre.length = .error .incomplete
      rw [checkF, getU8_at pre 36 [45, 49] pre.length rfl]
      norm_num
      rw [peekU8, get?_second pre 36 45 [49]]
      norm_num
      rw [skip_short _ _ _ (by simp)]
    · show checkF (fuel + 1) (pre ++ [36, 45, 49, 13]) pre.length = .error .incomplete
      rw [checkF, getU8_at pre 36 [45, 49, 13] pre.length rfl]
      norm_num
      rw [peekU8, get?_second pre 36 45 [49, 13]]
      norm_num
      rw [skip_short _ _ _ (by simp)]
  | bulk b =>
    simp only [writeValue] at he
    cases hwd : writeDecimal b.length with
    | error msg => rw [hwd] at he; cases he
    | ok d =>
      rw [hwd] at he
      have he2 := Except.ok.inj he
      subst he2
      obtain ⟨hd, hn⟩ := writeDecimal_ok hwd
      subst hd
      obtain ⟨d0, dtl, hd0⟩ := List.exists_cons_of_ne_nil (decDigits_props b.length).1
      have hd0r := (decDigits_props b.length).2.1 d0
        (by rw [hd0]; exact List.mem_cons_self d0 dtl)
      have he3 : (36 :: (decDigits b.length ++ [13, 10]) ++ b ++ [13, 10]) =
          36 :: (decDigits b.length ++ 13 :: 10 :: (b ++ [13, 10])) := by simp
      rw [he3] at hk ⊢
      cases k with
      | zero =>
        rw [List.take_zero, List.append_nil, checkF, getU8_end pre pre.length rfl]
      | succ k2 =>
        simp only [List.length_cons] at hk
        have hk2 : k2 < (decDigits b.length).length + 2 + (b.length + 2) := by
          simp at hk
          omega
        rw [List.take_succ_cons, checkF, getU8_at pre 36
          (List.take k2 (decDigits b.length ++ 13 :: 10 :: (b ++ [13, 10]))) pre.length rfl]
        norm_num
        cases k2 with
        | zero =>
          rw [List.take_zero, peekU8]
          have hnone : (pre ++ 36 :: ([] : List Nat)).get? (pre.length + 1) = none := by
            apply List.get?_eq_none.mpr
            simp
          rw [hnone]
        | succ k3 =>
          have hpk : (List.take (k3 + 1)
              (decDigits b.length ++ 13 :: 10 :: (b ++ [13, 10]))).get? 0 = some d0 := by
            rw [List.get?_take (by omega), hd0]
            have hshape : (d0 :: dtl) ++ 13 :: 10 :: (b ++ [13, 10]) =
                d0 :: (dtl ++ 13 :: 10 :: (b ++ [13, 10])) := by simp
            rw [hshape]
            rfl
          rw [peekU8, get?_after2, hpk]
          have h45 : ¬ d0 = 45 := by omega
          simp only [if_neg h45]
          by_cases hsmall : k3 + 1 ≤ (decDigits b.length).length + 1
          · have hbuf2 : pre ++ 36 ::
                (List.take (k3 + 1) (decDigits b.length ++ 13 :: 10 :: (b ++ [13, 10]))) =
                (pre ++ [36]) ++
                  List.take (k3 + 1) (decDigits b.length ++ 13 :: 10 :: (b ++ [13, 10])) := by
              simp
            rw [hbuf2, getDecimal_incomplete (pre ++ [36]) _ (pre.length + 1) (by simp)
              (noPair_take_head (noPair_digits b.length) (b ++ [13, 10]) hsmall)]
          · have hta : List.take (k3 + 1) (decDigits b.length ++ 13 :: 10 :: (b ++ [13, 10])) =
                decDigits b.length ++ 13 :: 10 ::
                  List.take (k3 + 1 - ((decDigits b.length).length + 2)) (b ++ [13, 10]) := by
              rw [List.take_append_eq_append_take, List.take_of_length_le (by omega)]
              congr 1
              have harith : k3 + 1 - (decDigits b.length).length =
                  (k3 + 1 - ((decDigits b.length).length + 2)) + 2 := by omega
              rw [harith, List.take_succ_cons, List.take_succ_cons]
            rw [hta]
            have hbuf2 : pre ++ 36 :: (decDigits b.length ++ 13 :: 10 ::
                List.take (k3 + 1 - ((decDigits b.length).length + 2)) (b ++ [13, 10])) =
                (pre ++ [36]) ++ decDigits b.length ++ 13 :: 10 ::
                  List.take (k3 + 1 - ((decDigits b.length).length + 2)) (b ++ [13, 10]) := by
              simp
            rw [hbuf2, getDecimal_complete (pre ++ [36]) _ b.length (pre.length + 1)
              (by simp) hn]
            show skip ((pre ++ [36]) ++ decDigits b.length ++ 13 :: 10 ::
                List.take (k3 + 1 - ((decDigits b.length).length + 2)) (b ++ [13, 10]))
                (pre.length + 1 + (decDigits b.length).length + 2) (b.length + 2) =
              .error .incomplete
            apply skip_short
            have hjlen : (List.take (k3 + 1 - ((decDigits b.length).length + 2))
                (b ++ [13, 10])).length = k3 + 1 - ((decDigits b.length).length + 2) := by
              rw [List.length_take]
              simp
              omega
            simp [hjlen]
            omega
  | array xs =>
    simp only [writeValue] at he
    cases he

/-! ## The element loop of `check`'s array arm -/

/-- All elements of an array body check out in sequence, landing exactly at
the end of the concatenated element encodings. -/
theorem checkItems_complete :
    ∀ (xs : List Frame) (body : List Nat), writeValues xs = .ok body →
      textsCrlfFree (.array xs) = true →
      ∀ (fuel : Nat) (pre rest : List Nat) (pos : Nat), pos = pre.length →
        checkItems (fun q => checkF (fuel + 1) (pre ++ body ++ rest) q) xs.length pos =
          .ok (pos + body.length) := by
  intro xs
  induction xs with
  | nil =>
    intro body hb _ fuel pre rest pos _
    simp only [writeValues] at hb
    have hb2 := Except.ok.inj hb
    subst hb2
    simp [checkItems]
  | cons x xs ih =>
    intro body hb hc fuel pre rest pos hpos
    simp only [writeValues] at hb
    cases hex : writeValue x with
    | error m => rw [hex] at hb; cases hb
    | ok ex =>
      rw [hex] at hb
      cases hrest : writeValues xs with
      | error m => rw [hrest] at hb; cases hb
      | ok es =>
        rw [hrest] at hb
        have hb2 := Except.ok.inj hb
        subst hb2
        rw [textsCrlfFree] at hc
        simp only [Bool.and_eq_true] at hc
        obtain ⟨hcx, hcxs⟩ := hc
        subst hpos
        simp only [List.length_cons]
        rw [checkItems]
        have hstep : checkF (fuel + 1) (pre ++ (ex ++ es) ++ rest) pre.length =
            .ok (pre.length + ex.length) := by
          have hb3 : pre ++ (ex ++ es) ++ rest = pre ++ ex ++ (es ++ rest) := by simp
          rw [hb3]
          exact checkVal_complete x ex hex hcx fuel pre (es ++ rest) pre.length rfl
        rw [hstep]
        show checkItems (fun q => checkF (fuel + 1) (pre ++ (ex ++ es) ++ rest) q)
          xs.length (pre.length + ex.length) = .ok (pre.length + (ex ++ es).length)
        have hrec := ih es hrest hcxs fuel (pre ++ ex) rest (pre.length + ex.length)
          (by simp)
        have hb4 : pre ++ ex ++ es ++ rest = pre ++ (ex ++ es) ++ rest := by simp
        rw [hb4] at hrec
        rw [hrec]
        simp
        omega

/-- A strict truncation of an array body makes the element loop report
`Incomplete`: either some element is cut mid-encoding, or the buffer ends at
an element boundary with elements still missing. -/
theorem checkItems_truncated :
    ∀ (xs : List Frame) (body : List Nat), writeValues xs = .ok body →
      textsCrlfFree (.array xs) = true →
      ∀ (fuel : Nat) (pre : List Nat) (j : Nat) (pos : Nat), pos = pre.length →
        j < body.length →
        checkItems (fun q => checkF (fuel + 1) (pre ++ List.take j body) q) xs.length pos =
          .error .incomplete := by
  intro xs
  induction xs with
  | nil =>
    intro body hb _ fuel pre j pos _ hj
    simp only [writeValues] at hb
    have hb2 := Except.ok.inj hb
    subst hb2
    simp at hj
  | cons x xs ih =>
    intro body hb hc fuel pre j pos hpos hj
    simp only [writeValues] at hb
    cases hex : writeValue x with
    | error m => rw [hex] at hb; cases hb
    | ok ex =>
      rw [hex] at hb
      cases hrest : writeValues xs with
      | error m => rw [hrest] at hb; cases hb
      | ok es =>
        rw [hrest] at hb
        have hb2 := Except.ok.inj hb
        subst hb2
        rw [textsCrlfFree] at hc
        simp only [Bool.and_eq_true] at hc
        obtain ⟨hcx, hcxs⟩ := hc
        subst hpos
        simp only [List.length_cons]
        rw [checkItems]
        by_cases hjx : j < ex.length
        · have hta : List.take j (ex ++ es) = List.take j ex :=
            List.take_append_of_le_length (by omega)
          have hstep : checkF (fuel + 1) (pre ++ List.take j (ex ++ es)) pre.length =
              .error .incomplete := by
            rw [hta]
            exact checkVal_truncated x ex hex hcx fuel pre j pre.length rfl hjx
          rw [hstep]
        · push_neg at hjx
          have hta : List.take j (ex ++ es) = ex ++ List.take (j - ex.length) es := by
            rw [List.take_append_eq_append_take, List.take_of_length_le hjx]
          have hstep : checkF (fuel + 1) (pre ++ List.take j (ex ++ es)) pre.length =
              .ok (pre.length + ex.length) := by
            rw [hta]
            have hb3 : pre ++ (ex ++ List.take (j - ex.length) es) =
                pre ++ ex ++ List.take (j - ex.length) es := by simp
            rw [hb3]
            exact checkVal_complete x ex hex hcx fuel pre
              (List.take (j - ex.length) es) pre.length rfl
          rw [hstep]
          show checkItems (fun q => checkF (fuel + 1) (pre ++ List.take j (ex ++ es)) q)
            xs.length (pre.length + ex.length) = .error .incomplete
          have hjlt : j - ex.length < es.length := by
            simp only [List.length_append] at hj
            omega
          have hrec := ih es hrest hcxs fuel (pre ++ ex) (j - ex.length)
            (pre.length + ex.length) (by simp) hjlt
          have hb4 : pre ++ ex ++ List.take (j - ex.length) es =
              pre ++ List.take j (ex ++ es) := by
            rw [hta]
            simp
          rw [hb4] at hrec
          exact hrec

/-! ## `check` on array encodings -/

/-- A complete `write_frame` array encoding embedded in a larger buffer is
accepted in full.  The fuel is two more than needed by any element (one unit
is spent on the array header itself). -/
theorem checkArr_complete :
    ∀ (xs : List Frame) (e : List Nat), writeFrame (.array xs) = .ok e →
      textsCrlfFree (.array xs) = true →
      ∀ (fuel : Nat) (pre rest : List Nat) (pos : Nat), pos = pre.length →
        checkF (fuel + 2) (pre ++ e ++ rest) pos = .ok (pos + e.length) := by
  intro xs e he hc fuel pre rest pos hpos
  subst hpos
  simp only [writeFrame] at he
  cases hwd : writeDecimal xs.length with
  | error m => rw [hwd] at he; cases he
  | ok d =>
    rw [hwd] at he
    cases hes : writeValues xs with
    | error m => rw [hes] at he; cases he
    | ok es =>
      rw [hes] at he
      have he2 := Except.ok.inj he
      subst he2
      obtain ⟨hd, hn⟩ := writeDecimal_ok hwd
      subst hd
      have hbuf : pre ++ (42 :: (decDigits xs.length ++ [13, 10]) ++ es) ++ rest =
          pre ++ 42 :: (decDigits xs.length ++ 13 :: 10 :: (es ++ rest)) := by simp
      rw [hbuf, checkF,
        getU8_at pre 42 (decDigits xs.length ++ 13 :: 10 :: (es ++ rest)) pre.length rfl]
      norm_num
      have hbuf2 : pre ++ 42 :: (decDigits xs.length ++ 13 :: 10 :: (es ++ rest)) =
          (pre ++ [42]) ++ decDigits xs.length ++ 13 :: 10 :: (es ++ rest) := by simp
      rw [hbuf2, getDecimal_complete (pre ++ [42]) (es ++ rest) xs.length
        (pre.length + 1) (by simp) hn]
      have hbuf3 : (pre ++ [42]) ++ decDigits xs.length ++ 13 :: 10 :: (es ++ rest) =
          ((pre ++ [42]) ++ decDigits xs.length ++ [13, 10]) ++ es ++ rest := by simp
      rw [hbuf3]
      show checkItems
        (fun q => checkF (fuel + 1)
          (((pre ++ [42]) ++ decDigits xs.length ++ [13, 10]) ++ es ++ rest) q)
        xs.length (pre.length + 1 + (decDigits xs.length).length + 2) = _
      rw [checkItems_complete xs es hes hc fuel
        ((pre ++ [42]) ++ decDigits xs.length ++ [13, 10]) rest
        (pre.length + 1 + (decDigits xs.length).length + 2) (by simp; omega)]
      simp
      omega

/-- A strict truncation of a `write_frame` array encoding, ending the
buffer, is reported `Incomplete`. -/
theorem checkArr_truncated :
    ∀ (xs : List Frame) (e : List Nat), writeFrame (.array xs) = .ok e →
      textsCrlfFree (.array xs) = true →
      ∀ (fuel : Nat) (pre : List Nat) (k : Nat) (pos : Nat), pos = pre.length →
        k < e.length →
        checkF (fuel + 2) (pre ++ List.take k e) pos = .error .incomplete := by
  intro xs e he hc fuel pre k pos hpos hk
  subst hpos
  simp only [writeFrame] at he
  cases hwd : writeDecimal xs.length with
  | error m => rw [hwd] at he; cases he
  | ok d =>
    rw [hwd] at he
    cases hes : writeValues xs with
    | error m => rw [hes] at he; cases he
    | ok es =>
      rw [hes] at he
      have he2 := Except.ok.inj he
      subst he2
      obtain ⟨hd, hn⟩ := writeDecimal_ok hwd
      subst hd
      have he3 : (42 :: (decDigits xs.length ++ [13, 10]) ++ es) =
          42 :: (decDigits xs.length ++ 13 :: 10 :: es) := by simp
      rw [he3] at hk ⊢
      cases k with
      | zero =>
        rw [List.take_zero, List.append_nil, checkF, getU8_end pre pre.length rfl]
      | succ k2 =>
        simp only [List.length_cons] at hk
        rw [List.take_succ_cons, checkF, getU8_at pre 42
          (List.take k2 (decDigits xs.length ++ 13 :: 10 :: es)) pre.length rfl]
        norm_num
        by_cases hsmall : k2 ≤ (decDigits xs.length).length + 1
        · have hbuf2 : pre ++ 42 ::
              (List.take k2 (decDigits xs.length ++ 13 :: 10 :: es)) =
              (pre ++ [42]) ++ List.take k2 (decDigits xs.length ++ 13 :: 10 :: es) := by
            simp
          rw [hbuf2, getDecimal_incomplete (pre ++ [42]) _ (pre.length + 1) (by simp)
            (noPair_take_head (noPair_digits xs.length) es hsmall)]
        · push_neg at hsmall
          have hjlt : k2 - ((decDigits xs.length).length + 2) < es.length := by
            simp only [List.length_append, List.length_cons] at hk
            omega
          have hta : List.take k2 (decDigits xs.length ++ 13 :: 10 :: es) =
              decDigits xs.length ++ 13 :: 10 ::
                List.take (k2 - ((decDigits xs.length).length + 2)) es := by
            rw [List.take_append_eq_append_take, List.take_of_length_le (by omega)]
            congr 1
            have harith : k2 - (decDigits xs.length).length =
                (k2 - ((decDigits xs.length).length + 2)) + 2 := by omega
            rw [harith, List.take_succ_cons, List.take_succ_cons]
          rw [hta]
          have hbuf2 : pre ++ 42 :: (decDigits xs.length ++ 13 :: 10 ::
              List.take (k2 - ((decDigits xs.length).length + 2)) es) =
              (pre ++ [42]) ++ decDigits xs.length ++ 13 :: 10 ::
                List.take (k2 - ((decDigits xs.length).length + 2)) es := by
            simp
          rw [hbuf2, getDecimal_complete (pre ++ [42]) _ xs.length (pre.length + 1)
            (by simp) hn]
          have hbuf3 : (pre ++ [42]) ++ decDigits xs.length ++ 13 :: 10 ::
              List.take (k2 - ((decDigits xs.length).length + 2)) es =
              ((pre ++ [42]) ++ decDigits xs.length ++ [13, 10]) ++
                List.take (k2 - ((decDigits xs.length).length + 2)) es := by
            simp
          rw [hbuf3]
          show checkItems
            (fun q => checkF (fuel + 1)
              (((pre ++ [42]) ++ decDigits xs.length ++ [13, 10]) ++
                List.take (k2 - ((decDigits xs.length).length + 2)) es) q)
            xs.length (pre.length + 1 + (decDigits xs.length).length + 2) = _
          exact checkItems_truncated xs es hes hc fuel
            ((pre ++ [42]) ++ decDigits xs.length ++ [13, 10])
            (k2 - ((decDigits xs.length).length + 2))
            (pre.length + 1 + (decDigits xs.length).length + 2) (by simp; omega) hjlt

/-- C4 (amended): for every constructible frame whose Simple/Error texts are
free of embedded CRLF and whose `write_frame` serialization succeeds with
bytes `e`, `Frame::check` accepts the full buffer `e` with the cursor landing
exactly at `e.length`, and reports `Incomplete` on every strict prefix of
`e`.  (The unamended claim fails when a Simple/Error text embeds `\r\n`:
`check` then stops at the embedded terminator, accepting a strict prefix and
leaving trailing bytes after the full buffer's frame — see
`check_embedded_crlf_cx`.) -/
theorem check_of_encoding (f : Frame) (e : List Nat)
    (he : writeFrame f = .ok e) (hc : textsCrlfFree f = true) :
    checkRun e 0 = .ok e.length ∧
      ∀ k, k < e.length → checkRun (List.take k e) 0 = .error .incomplete := by
  constructor
  · rw [checkRun]
    cases f with
    | array xs =>
      have hne : e ≠ [] := by
        intro hnil
        subst hnil
        simp only [writeFrame] at he
        cases hwd : writeDecimal xs.length with
        | error m => rw [hwd] at he; cases he
        | ok d =>
          rw [hwd] at he
          cases hes : writeValues xs with
          | error m => rw [hes] at he; cases he
          | ok es =>
            rw [hes] at he
            have := Except.ok.inj he
            simp at this
      have h1 : e.length + 1 = (e.length - 1) + 2 := by
        have : 0 < e.length := List.length_pos.mpr hne
        omega
      rw [h1]
      have := checkArr_complete xs e he hc (e.length - 1) [] [] 0 rfl
      simpa using this
    | simple s =>
      have := checkVal_complete (.simple s) e he hc e.length [] [] 0 rfl
      simpa using this
    | error s =>
      have := checkVal_complete (.error s) e he hc e.length [] [] 0 rfl
      simpa using this
    | integer n =>
      have := checkVal_complete (.integer n) e he hc e.length [] [] 0 rfl
      simpa using this
    | bulk b =>
      have := checkVal_complete (.bulk b) e he hc e.length [] [] 0 rfl
      simpa using this
    | null =>
      have := checkVal_complete .null e he hc e.length [] [] 0 rfl
      simpa using this
  · intro k hk
    rw [checkRun]
    have hklen : (List.take k e).length = k := by
      rw [List.length_take]
      omega
    rw [hklen]
    cases f with
    | array xs =>
      cases k with
      | zero =>
        rw [List.take_zero, checkF, getU8_end [] 0 rfl]
      | succ k2 =>
        have := checkArr_truncated xs e he hc k2 [] (k2 + 1) 0 rfl hk
        simpa using this
    | simple s =>
      have := checkVal_truncated (.simple s) e he hc k [] k 0 rfl hk
      simpa using this
    | error s =>
      have := checkVal_truncated (.error s) e he hc k [] k 0 rfl hk
      simpa using this
    | integer n =>
      have := checkVal_truncated (.integer n) e he hc k [] k 0 rfl hk
      simpa using this
    | bulk b =>
      have := checkVal_truncated (.bulk b) e he hc k [] k 0 rfl hk
      simpa using this
    | null =>
      have := checkVal_truncated .null e he hc k [] k 0 rfl hk
      simpa using this

/-- C4 counterexample to the unamended claim: the Simple frame with text
"a\r\nb" serializes to "+a\r\nb\r\n" (write_frame never inspects the text),
but `Frame::check` stops at the embedded "\r\n": the strict 4-byte prefix
"+a\r\n" is accepted as complete (not Incomplete), and the full 7-byte
encoding is accepted with the cursor at 4, not at the end. -/
theorem check_embedded_crlf_cx :
    writeFrame (.simple [97, 13, 10, 98]) = .ok [43, 97, 13, 10, 98, 13, 10] ∧
      checkRun (List.take 4 [43, 97, 13, 10, 98, 13, 10]) 0 = .ok 4 ∧
      checkRun [43, 97, 13, 10, 98, 13, 10] 0 = .ok 4 :=
  ⟨rfl, rfl, rfl⟩

/-- Witness for `check_of_encoding` at the Simple frame "+a\r\n". -/
theorem check_of_encoding_witness :
    checkRun [43, 97, 13, 10] 0 = .ok 4 ∧
      checkRun (List.take 2 [43, 97, 13, 10]) 0 = .error .incomplete :=
  ⟨(check_of_encoding (.simple [97]) [43, 97, 13, 10] rfl
      (by simp [textsCrlfFree, crlfFree])).1,
   (check_of_encoding (.simple [97]) [43, 97, 13, 10] rfl
      (by simp [textsCrlfFree, crlfFree])).2 2 (by decide)⟩

end Redust
